import Mathlib

/-!
# Verification of the `stylized` styling engine

Shallow embedding of the core of the `stylized` repository (a rule-based
style-resolution engine for React Native together with a global reactive
theme store), and proofs of the specification claims about it.

Embedded source files:
* `src/theme/store/helpers.ts` (`deepMerge`)
* `src/react-native/src/theme/store/index.ts` (theme store: `getSnapshot`,
  `subscribe`, `setTheme`, `getTheme`)
* `src/cache/lru.ts` (`LRUCache`)
* `src/hash/optimizedHash.ts` (`optimizedHash`, `STYLE_HASH_PROPS`)
* `src/react-native/src/engine/builder.ts` (`evaluateCondition`,
  `resolveStyle`, rule processing inside `StylizedBuilder.build`, the
  `resolvedRef` computation and the final `React.createElement` prop
  assembly).  `src/react-native/src/engine/styled-engine.tsx` contains a
  second, behaviourally identical copy of the same logic.

JavaScript runtime values are modelled by the mutual inductive `JSVal`:
numbers are modelled as `Int` (no claim involves fractional or `NaN`
arithmetic), and every object or array carries an allocation identifier
`id : Nat` so that JavaScript reference equality (`===`) is expressible:
two live allocations are reference-equal iff their ids coincide.  Fresh
allocations are threaded explicitly through a `fresh : Nat` counter; a
model state is faithful when every live id is `< fresh`, so a freshly
allocated object is `===`-distinct from every existing one.
-/

namespace Stylized

mutual

/-- A JavaScript runtime value (as used for themes, props, styles and
attribute bags).  Objects and arrays carry an allocation id modelling
reference identity. -/
inductive JSVal where
  | vNull : JSVal
  | vUndef : JSVal
  | vBool : Bool → JSVal
  | vNum : Int → JSVal
  | vStr : String → JSVal
  | vArr : Nat → JSList → JSVal
  | vObj : Nat → JSFields → JSVal
  deriving DecidableEq, Repr

/-- The element list of a JavaScript array value. -/
inductive JSList where
  | nil : JSList
  | cons : JSVal → JSList → JSList
  deriving DecidableEq, Repr

/-- The own enumerable string-keyed fields of a JavaScript object value,
in property-creation order (JavaScript objects preserve string-key
insertion order). -/
inductive JSFields where
  | nil : JSFields
  | cons : String → JSVal → JSFields → JSFields
  deriving DecidableEq, Repr

end

open JSVal

/-- JavaScript strict equality `===`: primitives compare by value,
objects and arrays by reference (allocation id).  `null === undefined`
is `false`. -/
def jsEq : JSVal → JSVal → Bool
  | vNull, vNull => true
  | vUndef, vUndef => true
  | vBool a, vBool b => a = b
  | vNum a, vNum b => a = b
  | vStr a, vStr b => a = b
  | vArr i _, vArr j _ => i = j
  | vObj i _, vObj j _ => i = j
  | _, _ => false

/-- JavaScript truthiness: `null`, `undefined`, `false`, `0` and `""`
are falsy, everything else (including every object and array) is
truthy. -/
def truthy : JSVal → Bool
  | vNull => false
  | vUndef => false
  | vBool b => b
  | vNum n => n ≠ 0
  | vStr s => s ≠ ""
  | vArr _ _ => true
  | vObj _ _ => true

/-- `typeof v === 'object'` (true for objects, arrays and `null`). -/
def typeofObject : JSVal → Bool
  | vObj _ _ => true
  | vArr _ _ => true
  | vNull => true
  | _ => false

/-- `Array.isArray v`. -/
def isArrV : JSVal → Bool
  | vArr _ _ => true
  | _ => false

/-- `v` is a plain (non-array, non-null) object. -/
def isObjV : JSVal → Bool
  | vObj _ _ => true
  | _ => false

/-- The per-key recursion guard of `deepMerge`:
`pv && bv && typeof pv === 'object' && typeof bv === 'object' &&
!Array.isArray(pv) && !Array.isArray(bv)`. -/
def mergeGuard (pv bv : JSVal) : Bool :=
  truthy pv && truthy bv && typeofObject pv && typeofObject bv
    && !isArrV pv && !isArrV bv

/-- Lookup of a key in an object's field list (first match; a real
JavaScript object has distinct keys). -/
def fieldsLookup : JSFields → String → Option JSVal
  | .nil, _ => none
  | .cons k v rest, key => if k = key then some v else fieldsLookup rest key

/-- Element access `l[i]` of an array's element list. -/
def jsListGet : JSList → Nat → Option JSVal
  | .nil, _ => none
  | .cons v _, 0 => some v
  | .cons _ rest, n + 1 => jsListGet rest n

/-- Decimal digit value of a character. -/
def charDigit? (c : Char) : Option Nat :=
  if c = '0' then some 0 else if c = '1' then some 1 else if c = '2' then some 2
  else if c = '3' then some 3 else if c = '4' then some 4 else if c = '5' then some 5
  else if c = '6' then some 6 else if c = '7' then some 7 else if c = '8' then some 8
  else if c = '9' then some 9 else none

/-- Accumulating decimal parse of a digit list. -/
def digitsToNat? : List Char → Nat → Option Nat
  | [], acc => some acc
  | c :: cs, acc =>
    match charDigit? c with
    | some d => digitsToNat? cs (acc * 10 + d)
    | none => none

/-- Parse of a canonical JavaScript array-index key (decimal, no
leading zeros); non-index keys parse to `none`. -/
def parseIndex (s : String) : Option Nat :=
  match s.data with
  | [] => none
  | ['0'] => some 0
  | c :: cs =>
    if c = '0' then none
    else
      match charDigit? c with
      | some d => digitsToNat? cs d
      | none => none

/-- JavaScript property read `v[key]` as it occurs in the embedded code:
object fields by key, array elements by decimal index, everything else
(including absent keys) yields `undefined`.  Non-index array properties
(`length`, …) are outside the value model and also read as
`undefined`. -/
def getProp (v : JSVal) (key : String) : JSVal :=
  match v with
  | vObj _ fs => (fieldsLookup fs key).getD vUndef
  | vArr _ es =>
    match parseIndex key with
    | some i => (jsListGet es i).getD vUndef
    | none => vUndef
  | _ => vUndef

/-- The own enumerable fields of an object as a plain association list. -/
def fieldsToList : JSFields → List (String × JSVal)
  | .nil => []
  | .cons k v rest => (k, v) :: fieldsToList rest

/-- Rebuild a `JSFields` value from a plain association list. -/
def listToFields : List (String × JSVal) → JSFields
  | [] => .nil
  | (k, v) :: rest => .cons k v (listToFields rest)

/-- The elements of an array as a plain list. -/
def jsListToList : JSList → List JSVal
  | .nil => []
  | .cons v rest => v :: jsListToList rest

/-- Rebuild a `JSList` from a plain list. -/
def listToJSList : List JSVal → JSList
  | [] => .nil
  | v :: rest => .cons v (listToJSList rest)

/-! ## Association-list primitives

JavaScript object mutation `obj[key] = v` and `Object.assign` are
modelled on plain association lists whose order is JavaScript property
order: assignment to an existing key keeps its position, assignment to
a new key appends it. -/

/-- JavaScript property write `obj[key] = v` on an entry list. -/
def setEntry (l : List (String × JSVal)) (key : String) (v : JSVal) :
    List (String × JSVal) :=
  if l.any (fun e => e.1 = key) then
    l.map (fun e => if e.1 = key then (key, v) else e)
  else
    l ++ [(key, v)]

/-- First-match lookup of a key in an entry list (`Option`-valued; on
a JavaScript object keys are unique, so this is the unique binding). -/
def lookupFst (key : String) : List (String × JSVal) → Option JSVal
  | [] => none
  | e :: rest => if e.1 = key then some e.2 else lookupFst key rest

/-- `Object.assign(target, source)`: assign every entry of `source`
onto `target`, left to right. -/
def objAssign (target source : List (String × JSVal)) :
    List (String × JSVal) :=
  source.foldl (fun acc e => setEntry acc e.1 e.2) target

/-! ## `deepMerge` (src/theme/store/helpers.ts)

The merge returns, besides the merged value, a `Bool` flag that is
`true` exactly when the JavaScript function would return a value
reference-distinct from `base` (`merged !== base`): the top-level
early-return paths return `base` (flag `false`) or `partial` (flag
`true`, reachable only when `partial !== base` was already checked),
and the loop path returns a fresh allocation iff `mutated` was set.
The recursive call site `merged !== baseValue` of the source is decided
through this flag. -/

/-- The spread-copy `Array.isArray(base) ? [...base] : {...base}` of the
source, as an entry list: object fields, or array elements under their
decimal-index keys; spreading a primitive yields no entries. -/
def copyEntries (v : JSVal) : List (String × JSVal) :=
  match v with
  | vObj _ fs => fieldsToList fs
  | vArr _ es => (jsListToList es).enum.map (fun e => (Nat.repr e.1, e.2))
  | _ => []

/-- Rebuild the merge result from the accumulated entry list: an array
result (when `base` was an array) takes the entry values in order, an
object result takes the entries as fields. -/
def rebuildResult (base : JSVal) (acc : List (String × JSVal))
    (fresh : Nat) : JSVal :=
  if isArrV base then vArr fresh (listToJSList (acc.map (fun e => e.2)))
  else vObj fresh (listToFields acc)

mutual

/-- `deepMerge(base, partial)` of `src/theme/store/helpers.ts`, with an
explicit allocation counter.  Returns `(result, changed, fresh')` where
`changed` models `result !== base`. -/
def deepMergeF : JSVal → JSVal → Nat → JSVal × Bool × Nat
  | base, patch, fresh =>
    -- if (partial === base) return base;
    if jsEq patch base then (base, false, fresh)
    -- if (!partial) return base;
    else if truthy patch = false then (base, false, fresh)
    -- if (!base) return partial;
    else if truthy base = false then (patch, true, fresh)
    -- if (typeof partial !== 'object' || partial === null) return partial;
    else if typeofObject patch = false then (patch, true, fresh)
    else
      match patch with
      | vObj _ pfs =>
        let r := mergeFields base pfs (copyEntries base) false fresh
        if r.2.1 then (rebuildResult base r.1 r.2.2, true, r.2.2 + 1)
        else (base, false, r.2.2)
      | vArr _ pes =>
        let r := mergeElems base pes 0 (copyEntries base) false fresh
        if r.2.1 then (rebuildResult base r.1 r.2.2, true, r.2.2 + 1)
        else (base, false, r.2.2)
      -- unreachable: a truthy value of typeof 'object' is an object or array
      | _ => (patch, true, fresh)

/-- The `for (const key in partial)` loop of `deepMerge` for an object
`partial`, iterating its fields in property order.  `acc` is the
`result` copy, `mutd` the `mutated` flag. -/
def mergeFields (base : JSVal) (pfs : JSFields)
    (acc : List (String × JSVal)) (mutd : Bool) (fresh : Nat) :
    List (String × JSVal) × Bool × Nat :=
  match pfs with
  | .nil => (acc, mutd, fresh)
  | .cons k pv rest =>
    let bv := getProp base k
    -- if (partialValue === baseValue) continue;
    if jsEq pv bv then mergeFields base rest acc mutd fresh
    else if mergeGuard pv bv then
      let m := deepMergeF bv pv fresh
      -- if (merged !== baseValue) { result[key] = merged; mutated = true; }
      if m.2.1 then mergeFields base rest (setEntry acc k m.1) true m.2.2
      else mergeFields base rest acc mutd m.2.2
    else
      -- result[key] = partialValue; mutated = true;
      mergeFields base rest (setEntry acc k pv) true fresh

/-- The same loop for an array `partial`: `for..in` over an array
enumerates its indices `"0"`, `"1"`, … in order. -/
def mergeElems (base : JSVal) (pes : JSList) (idx : Nat)
    (acc : List (String × JSVal)) (mutd : Bool) (fresh : Nat) :
    List (String × JSVal) × Bool × Nat :=
  match pes with
  | .nil => (acc, mutd, fresh)
  | .cons pv rest =>
    let k := Nat.repr idx
    let bv := getProp base k
    if jsEq pv bv then mergeElems base rest (idx + 1) acc mutd fresh
    else if mergeGuard pv bv then
      let m := deepMergeF bv pv fresh
      if m.2.1 then mergeElems base rest (idx + 1) (setEntry acc k m.1) true m.2.2
      else mergeElems base rest (idx + 1) acc mutd m.2.2
    else
      mergeElems base rest (idx + 1) (setEntry acc k pv) true fresh

end

/-- The merged value of `deepMerge(base, partial)`. -/
def deepMerge (base patch : JSVal) (fresh : Nat) : JSVal :=
  (deepMergeF base patch fresh).1

/-! ## Theme store (src/react-native/src/theme/store/index.ts)

The module-level mutable state (`_currentTheme` and the listener `Set`)
is modelled by explicit state passing.  Listeners are identified by
`Nat` tokens; a JavaScript `Set` preserves insertion order, deduplicates
by reference, and `forEach` iterates in insertion order, so the listener
set is a duplicate-free list and a notification pass is the list
itself. -/

structure StoreState where
  theme : JSVal
  listeners : List Nat
  fresh : Nat
  deriving Repr

/-- `themeStore.getSnapshot` — returns the current theme reference. -/
def getSnapshot (s : StoreState) : JSVal := s.theme

/-- `getTheme` — non-reactive accessor for the current theme. -/
def getTheme (s : StoreState) : JSVal := s.theme

/-- `themeStore.subscribe(listener)` — `listeners.add(listener)`:
adding a listener already in the set is a no-op, otherwise it is
appended in insertion order. -/
def subscribe (s : StoreState) (l : Nat) : StoreState :=
  if l ∈ s.listeners then s else { s with listeners := s.listeners ++ [l] }

/-- The unsubscribe closure returned by `subscribe`:
`listeners.delete(listener)`. -/
def unsubscribe (s : StoreState) (l : Nat) : StoreState :=
  { s with listeners := s.listeners.filter (fun x => ¬(x = l)) }

/-- The argument of `setTheme`: a partial theme object or an updater
function of the previous snapshot. -/
inductive ThemeInput where
  | patch (p : JSVal)
  | updater (f : JSVal → JSVal)

/-- `typeof input === 'function' ? input(prev) : input`. -/
def resolveInput (input : ThemeInput) (prev : JSVal) : JSVal :=
  match input with
  | .patch p => p
  | .updater f => f prev

/-- `setTheme(input)` — resolves the input against the previous
snapshot, deep-merges it into the snapshot, stores the result and
notifies every listener (`listeners.forEach`).  Returns the new store
state, the merged theme (the function's return value) and the list of
listener invocations in iteration order. -/
def setTheme (s : StoreState) (input : ThemeInput) :
    StoreState × JSVal × List Nat :=
  let prev := s.theme
  let nextPartial := resolveInput input prev
  let m := deepMergeF prev nextPartial s.fresh
  ({ s with theme := m.1, fresh := m.2.2 }, m.1, s.listeners)

/-! ## LRU cache (src/cache/lru.ts)

A JavaScript `Map` preserves key insertion order; `delete` + `set`
re-inserts at the end.  The map is modelled as its entry list in
insertion order (keys unique). -/

structure LRUCache (K V : Type) where
  limit : Nat
  entries : List (K × V)
  deriving Repr, DecidableEq

/-- `LRUCache.get` — returns the value if present and promotes the
entry to most-recently-used by removing and re-inserting it. -/
def LRUCache.get [DecidableEq K] (c : LRUCache K V) (k : K) :
    Option V × LRUCache K V :=
  match c.entries.find? (fun e => e.1 = k) with
  | none => (none, c)
  | some e =>
    (some e.2,
     { c with entries := c.entries.filter (fun x => ¬(x.1 = k)) ++ [(k, e.2)] })

/-- `LRUCache.set` — on an existing key, delete and re-insert at the
end; on a new key at capacity, evict the single oldest entry first. -/
def LRUCache.set [DecidableEq K] (c : LRUCache K V) (k : K) (v : V) :
    LRUCache K V :=
  if c.entries.any (fun e => e.1 = k) then
    { c with entries := c.entries.filter (fun x => ¬(x.1 = k)) ++ [(k, v)] }
  else if c.limit ≤ c.entries.length then
    { c with entries := c.entries.tail ++ [(k, v)] }
  else
    { c with entries := c.entries ++ [(k, v)] }

/-- `LRUCache.clear`. -/
def LRUCache.clear (c : LRUCache K V) : LRUCache K V :=
  { c with entries := [] }

/-! ## Context hash (src/hash/optimizedHash.ts) -/

/-- The resolution context `{theme, props, platform}` built on each
render.  Props are the own enumerable entries of the props object. -/
structure StyleCtx where
  theme : JSVal
  props : List (String × JSVal)
  platform : String

/-- Property read on a props/attrs entry list (`props[key]`, absent
keys read as `undefined`). -/
def propsGet : List (String × JSVal) → String → JSVal
  | [], _ => vUndef
  | e :: rest, k => if e.1 = k then e.2 else propsGet rest k

mutual

/-- `Array.prototype.join(',')` over an array's elements. -/
def jsListJoin : JSList → String
  | .nil => ""
  | .cons e .nil => jsElemStr e
  | .cons e rest => jsElemStr e ++ "," ++ jsListJoin rest

/-- The string of one joined array element: `null`/`undefined`
elements become empty strings, other values stringify as usual. -/
def jsElemStr : JSVal → String
  | vNull => ""
  | vUndef => ""
  | vBool b => if b then "true" else "false"
  | vNum n => n.repr
  | vStr s => s
  | vArr _ es => jsListJoin es
  | vObj _ _ => "[object Object]"

end

/-- JavaScript string conversion as used by template literals:
primitives verbatim, arrays joined by `","`, plain objects as
`"[object Object]"`. -/
def jsToString : JSVal → String
  | vNull => "null"
  | vUndef => "undefined"
  | vBool b => if b then "true" else "false"
  | vNum n => n.repr
  | vStr s => s
  | vArr _ es => jsListJoin es
  | vObj _ _ => "[object Object]"

/-- The fixed allowlist of prop names entering the hash. -/
def STYLE_HASH_PROPS : List String :=
  ["variant", "size", "type", "active", "disabled", "focused", "selected"]

/-- `typeof val` is `'string'`, `'number'` or `'boolean'`. -/
def isPrimVal : JSVal → Bool
  | vStr _ => true
  | vNum _ => true
  | vBool _ => true
  | _ => false

/-- The theme identity token of the hash:
`(ctx.theme as any)?.id ?? 'theme'`, stringified by the template
literal. -/
def themeIdToken (theme : JSVal) : String :=
  match getProp theme "id" with
  | vUndef => "theme"
  | vNull => "theme"
  | v => jsToString v

/-- The allowlist loop of `optimizedHash`: appends `|key:value` for
each allowlisted prop whose value is defined and primitive. -/
def hashProps (props : List (String × JSVal)) : List String → String → String
  | [], acc => acc
  | k :: rest, acc =>
    let val := propsGet props k
    hashProps props rest
      (if !(jsEq val vUndef) && isPrimVal val then
        acc ++ "|" ++ k ++ ":" ++ jsToString val
      else acc)

/-- `optimizedHash(ctx)` — platform tag, theme identity token, then the
allowlisted primitive prop pairs. -/
def optimizedHash (ctx : StyleCtx) : String :=
  hashProps ctx.props STYLE_HASH_PROPS (ctx.platform ++ "-" ++ themeIdToken ctx.theme)

/-! ## Rule engine (src/react-native/src/engine/builder.ts) -/

/-- A condition of a `when` rule: the runtime distinguishes functions,
strings, and (by falling through both) booleans. -/
inductive Cond where
  | bool (b : Bool)
  | str (s : String)
  | fn (f : StyleCtx → Bool)

/-- `condition.includes(':')`. -/
def hasColon (s : String) : Bool :=
  s.data.any (fun c => c = ':')

/-- `condition.split(':')` over the character list. -/
def splitColonAux : List Char → List Char → List String
  | [], cur => [String.mk cur.reverse]
  | c :: rest, cur =>
    if c = ':' then String.mk cur.reverse :: splitColonAux rest []
    else splitColonAux rest (c :: cur)

/-- `condition.split(':')`. -/
def splitColon (s : String) : List String :=
  splitColonAux s.data []

/-- `evaluateCondition(condition, ctx)`.  Returns `none` when the
JavaScript code raises: a boolean condition falls through the function
and platform checks and then calls `condition.includes`, which raises
`TypeError` because booleans have no `includes` method. -/
def evaluateCondition (c : Cond) (ctx : StyleCtx) : Option Bool :=
  match c with
  | .fn f => some (f ctx)
  | .str s =>
    if s = "ios" ∨ s = "android" ∨ s = "web" then some (ctx.platform = s)
    else if hasColon s then
      -- const [key, value] = condition.split(':');
      let parts := splitColon s
      some (jsEq (propsGet ctx.props (parts.headD ""))
        ((parts.get? 1).elim vUndef vStr))
    else some (truthy (propsGet ctx.props s))
  | .bool _ => none

/-- A style payload: a literal style value or a function of the
context (`StyleOrFn`). -/
inductive StyleOrFn where
  | lit (s : JSVal)
  | fn (f : StyleCtx → JSVal)

/-- `resolveStyle(style, ctx)` — call if a function, else use the
literal. -/
def resolveStyle (st : StyleOrFn) (ctx : StyleCtx) : JSVal :=
  match st with
  | .lit s => s
  | .fn f => f ctx

/-- A builder rule (the `Rule` union of the source): a style rule, a
conditional attribute rule, or an unconditional attribute rule. -/
inductive SRule where
  | style (s : StyleOrFn)
  | whenR (c : Cond) (attrs : List (String × JSVal))
  | attrsR (attrs : List (String × JSVal))

/-- Number of function invocations a style payload costs when
resolved. -/
def styleCost : StyleOrFn → Nat
  | .lit _ => 0
  | .fn _ => 1

/-- Number of function invocations a condition costs when evaluated. -/
def condCost : Cond → Nat
  | .fn _ => 1
  | _ => 0

/-- The rule loop of `StylizedBuilder.build` (cache-miss path):
iterates the rules in insertion order, pushing resolved style rules
onto the style list and `Object.assign`-ing triggered conditional and
unconditional attrs onto the accumulating attribute object.  Also
counts the style-function and condition-function invocations performed.
`none` models an exception escaping the loop (boolean condition). -/
def processRulesAux : List SRule → StyleCtx → List JSVal →
    List (String × JSVal) → Nat → Nat →
    Option (List JSVal × List (String × JSVal) × Nat × Nat)
  | [], _, styles, attrs, sc, cc => some (styles, attrs, sc, cc)
  | r :: rest, ctx, styles, attrs, sc, cc =>
    match r with
    | .whenR c a =>
      match evaluateCondition c ctx with
      | none => none
      | some b =>
        processRulesAux rest ctx styles (if b then objAssign attrs a else attrs)
          sc (cc + condCost c)
    | .style st =>
      processRulesAux rest ctx (styles ++ [resolveStyle st ctx]) attrs
        (sc + styleCost st) cc
    | .attrsR a =>
      processRulesAux rest ctx styles (objAssign attrs a) sc cc

/-- The rule loop started on empty accumulators. -/
def processRules (rules : List SRule) (ctx : StyleCtx) :
    Option (List JSVal × List (String × JSVal) × Nat × Nat) :=
  processRulesAux rules ctx [] [] 0 0

mutual

/-- `StyleSheet.flatten` of one style entry (external react-native
capability): objects contribute their fields, arrays their recursively
flattened merge, everything else nothing. -/
def flattenOne : JSVal → Option (List (String × JSVal))
  | vObj _ fs => some (fieldsToList fs)
  | vArr _ es => some (flattenListAux es [])
  | _ => none

/-- Flattening of an array of style entries, merging left to right. -/
def flattenListAux : JSList → List (String × JSVal) → List (String × JSVal)
  | .nil, acc => acc
  | .cons e rest, acc =>
    flattenListAux rest
      (match flattenOne e with
       | some entries => objAssign acc entries
       | none => acc)

end

/-- `StyleSheet.flatten(styles)` on the accumulated style list. -/
def flattenStyles (styles : List JSVal) : List (String × JSVal) :=
  styles.foldl
    (fun acc s =>
      match flattenOne s with
      | some entries => objAssign acc entries
      | none => acc) []

/-- One cached resolution result: `{computedStyle, attrs}` (the
flattened style object and the merged attribute object). -/
abbrev CacheEntry := (List (String × JSVal)) × (List (String × JSVal))

/-- The builder's `cacheByTheme` WeakMap, keyed by theme object
identity. -/
structure BuildState where
  cacheByTheme : List (Nat × LRUCache String CacheEntry)
  deriving Repr, DecidableEq

/-- The WeakMap key of a theme: its allocation id; a primitive theme
is not a valid WeakMap key. -/
def themeKey : JSVal → Option Nat
  | vObj i _ => some i
  | vArr i _ => some i
  | _ => none

/-- `cacheByTheme.get(theme)`. -/
def getPartition (st : BuildState) (tid : Nat) :
    Option (LRUCache String CacheEntry) :=
  (st.cacheByTheme.find? (fun e => e.1 = tid)).map (fun e => e.2)

/-- `cacheByTheme.set(theme, cache)`. -/
def setPartition (st : BuildState) (tid : Nat)
    (c : LRUCache String CacheEntry) : BuildState :=
  if st.cacheByTheme.any (fun e => e.1 = tid) then
    ⟨st.cacheByTheme.map (fun e => if e.1 = tid then (tid, c) else e)⟩
  else ⟨st.cacheByTheme ++ [(tid, c)]⟩

/-- The memoized `{computedStyle, attrs}` computation of the rendered
component: hash the context, find or create the per-theme cache
partition, return the cached entry on a hit, otherwise run the rule
loop, flatten, store and return.  Besides the entry and the updated
cache state it returns the number of style-function and of
condition-function invocations performed.  `none` models a raised
exception (primitive theme used as WeakMap key, or a boolean
condition). -/
def resolveOnce (rules : List SRule) (st : BuildState) (ctx : StyleCtx) :
    Option (CacheEntry × BuildState × Nat × Nat) :=
  let hash := optimizedHash ctx
  match themeKey ctx.theme with
  | none => none
  | some tid =>
    let cache := (getPartition st tid).getD ⟨300, []⟩
    let st1 := setPartition st tid cache
    match cache.get hash with
    | (some r, cache2) => some (r, setPartition st1 tid cache2, 0, 0)
    | (none, _) =>
      match processRules rules ctx with
      | none => none
      | some (styles, attrs, sc, cc) =>
        let result : CacheEntry := (flattenStyles styles, attrs)
        some (result, setPartition st1 tid (cache.set hash result), sc, cc)

/-- The `resolvedRef` computation of the rendered component: scan the
rules in order and return the first `when` rule's truthy `attrs.ref`,
regardless of its condition; fall back to the forwarded ref. -/
def resolvedRef (rules : List SRule) (fwd : JSVal) : JSVal :=
  match rules with
  | [] => fwd
  | .whenR _ a :: rest =>
    if truthy (propsGet a "ref") then propsGet a "ref" else resolvedRef rest fwd
  | _ :: rest => resolvedRef rest fwd

/-- The prop object passed to `React.createElement`:
`{...attrs, ...restProps, ref: resolvedRef, style: propStyle ?
[computedStyle, propStyle] : computedStyle}`, where `restProps` is the
incoming props without `style`. -/
def stylizedRender (attrs props : List (String × JSVal))
    (computedStyle : JSVal) (refv : JSVal) (fresh : Nat) :
    List (String × JSVal) :=
  let propStyle := propsGet props "style"
  let restProps := props.filter (fun e => ¬(e.1 = "style"))
  setEntry (setEntry (objAssign attrs restProps) "ref" refv) "style"
    (if truthy propStyle then
      vArr fresh (.cons computedStyle (.cons propStyle .nil))
    else computedStyle)

/-! ## Specification-side observers

Definitions below are not translations of source code; they express the
specification's view of the data (which value of a prop enters the
hash, which rules contribute attributes, …) and are compared with the
source translations by the theorems. -/

/-- The keys of an entry list. -/
def entryKeys (l : List (String × JSVal)) : List String :=
  l.map (fun e => e.1)

/-- The hash-relevant projection of a prop value: the value itself when
it is defined and primitive, nothing otherwise. -/
def hashedVal (v : JSVal) : Option JSVal :=
  if !(jsEq v vUndef) && isPrimVal v then some v else none

mutual

/-- No key of `patch` produces a net change against `base` anywhere in
the tree: every leaf of `patch` is reference-equal to `base`'s
corresponding value, descending only through pairs of plain objects. -/
def noNetChange (base patch : JSVal) : Bool :=
  match patch with
  | vObj _ pfs => noNetChangeFields base pfs
  | _ => jsEq patch base

/-- Field-wise form of `noNetChange`. -/
def noNetChangeFields (base : JSVal) : JSFields → Bool
  | .nil => true
  | .cons k pv rest =>
    (jsEq pv (getProp base k)
      || (mergeGuard pv (getProp base k) && noNetChange (getProp base k) pv))
    && noNetChangeFields base rest

end

/-- The style contribution of a rule (resolved against the context),
if it is a style rule. -/
def styleOf (ctx : StyleCtx) : SRule → Option JSVal
  | .style st => some (resolveStyle st ctx)
  | _ => none

/-- The attribute contribution of a rule: the attrs of a conditional
rule whose condition evaluates to true, or of an unconditional
attribute rule. -/
def attrContrib (ctx : StyleCtx) : SRule → Option (List (String × JSVal))
  | .whenR c a => if evaluateCondition c ctx = some true then some a else none
  | .attrsR a => some a
  | .style _ => none

/-- The attribute contributions of a rule list in insertion order. -/
def activeContribs (rules : List SRule) (ctx : StyleCtx) :
    List (List (String × JSVal)) :=
  rules.filterMap (attrContrib ctx)

/-- No conditional rule carries a boolean condition (a boolean
condition makes `evaluateCondition` raise). -/
def noBoolConds (rules : List SRule) : Bool :=
  rules.all (fun r =>
    match r with
    | .whenR (.bool _) _ => false
    | _ => true)

/-- Total number of style-function invocations a full pass over the
rules performs. -/
def totalStyleCost (rules : List SRule) : Nat :=
  (rules.map (fun r =>
    match r with
    | .style st => styleCost st
    | _ => 0)).sum

/-- Total number of condition-function invocations a full pass over
the rules performs. -/
def totalCondCost (rules : List SRule) : Nat :=
  (rules.map (fun r =>
    match r with
    | .whenR c _ => condCost c
    | _ => 0)).sum

/-- The ref override offered by a rule: a conditional rule's truthy
`attrs.ref`. -/
def whenRefOf : SRule → Option JSVal
  | .whenR _ a => if truthy (propsGet a "ref") then some (propsGet a "ref") else none
  | _ => none

/-! ## Entry-list lemmas -/

theorem jsEq_refl (v : JSVal) : jsEq v v = true := by
  cases v <;> simp [jsEq]

theorem propsGet_eq_lookupFst (l : List (String × JSVal)) (k : String) :
    propsGet l k = (lookupFst k l).getD vUndef := by
  induction l with
  | nil => rfl
  | cons e rest ih =>
    by_cases h : e.1 = k <;> simp [propsGet, lookupFst, h, ih]

theorem lookupFst_setEntry_self (l : List (String × JSVal)) (k : String)
    (v : JSVal) : lookupFst k (setEntry l k v) = some v := by
  induction l with
  | nil => simp [setEntry, lookupFst]
  | cons e rest ih =>
    by_cases h : e.1 = k
    · simp [setEntry, List.any_cons, h, lookupFst]
    · simp only [setEntry, List.any_cons] at ih ⊢
      by_cases h2 : rest.any (fun e => decide (e.1 = k))
      · simp [h, h2, lookupFst]
        simpa [setEntry, h2] using ih
      · simp [h, h2, lookupFst]
        simpa [setEntry, h2] using ih

theorem lookupFst_replace_ne (l : List (String × JSVal)) (k k' : String)
    (v : JSVal) (h : k' ≠ k) :
    lookupFst k' (l.map (fun e => if e.1 = k then (k, v) else e))
      = lookupFst k' l := by
  induction l with
  | nil => rfl
  | cons e rest ih =>
    simp only [List.map_cons]
    by_cases he : e.1 = k
    · simp [lookupFst, he, Ne.symm h, ih]
    · rw [if_neg he]
      simp only [lookupFst]
      by_cases h2 : e.1 = k' <;> simp [h2, ih]

theorem lookupFst_append_ne (l : List (String × JSVal)) (k k' : String)
    (v : JSVal) (h : k' ≠ k) :
    lookupFst k' (l ++ [(k, v)]) = lookupFst k' l := by
  induction l with
  | nil => simp [lookupFst, Ne.symm h]
  | cons e rest ih =>
    by_cases h2 : e.1 = k' <;> simp [lookupFst, h2, ih]

theorem lookupFst_setEntry_ne (l : List (String × JSVal)) (k k' : String)
    (v : JSVal) (h : k' ≠ k) :
    lookupFst k' (setEntry l k v) = lookupFst k' l := by
  unfold setEntry
  by_cases h2 : l.any (fun e => decide (e.1 = k)) <;>
    simp only [h2, if_true, if_false, decide_eq_true_eq] <;>
    [exact lookupFst_replace_ne l k k' v h;
     exact lookupFst_append_ne l k k' v h]

theorem propsGet_setEntry_self (l : List (String × JSVal)) (k : String)
    (v : JSVal) : propsGet (setEntry l k v) k = v := by
  simp [propsGet_eq_lookupFst, lookupFst_setEntry_self]

theorem propsGet_setEntry_ne (l : List (String × JSVal)) (k k' : String)
    (v : JSVal) (h : k' ≠ k) :
    propsGet (setEntry l k v) k' = propsGet l k' := by
  simp [propsGet_eq_lookupFst, lookupFst_setEntry_ne _ _ _ _ h]

theorem lookupFst_eq_none_of_not_mem (l : List (String × JSVal))
    (k : String) (h : k ∉ entryKeys l) : lookupFst k l = none := by
  induction l with
  | nil => rfl
  | cons e rest ih =>
    simp only [entryKeys, List.map_cons, List.mem_cons, not_or] at h
    have h1 : ¬ (e.1 = k) := fun hc => h.1 hc.symm
    simp only [lookupFst, if_neg h1]
    exact ih (by simpa [entryKeys] using h.2)

theorem lookupFst_objAssign (a m : List (String × JSVal)) (k : String)
    (ha : (entryKeys a).Nodup) :
    lookupFst k (objAssign m a) =
      match lookupFst k a with
      | some v => some v
      | none => lookupFst k m := by
  induction a generalizing m with
  | nil => simp [objAssign, lookupFst]
  | cons e rest ih =>
    simp only [entryKeys, List.map_cons, List.nodup_cons] at ha
    have hstep : objAssign m (e :: rest) = objAssign (setEntry m e.1 e.2) rest := by
      simp [objAssign]
    rw [hstep, ih _ (by simpa [entryKeys] using ha.2)]
    by_cases hk : e.1 = k
    · subst hk
      have hnone : lookupFst e.1 rest = none :=
        lookupFst_eq_none_of_not_mem _ _ (by simpa [entryKeys] using ha.1)
      simp [lookupFst, hnone, lookupFst_setEntry_self]
    · simp only [lookupFst, if_neg hk]
      cases hr : lookupFst k rest with
      | some v => simp
      | none => simp [lookupFst_setEntry_ne _ _ _ _ (fun hc => hk hc.symm)]

theorem getLast?_cons' (x : α) (l : List α) :
    (x :: l).getLast? =
      match l.getLast? with
      | some y => some y
      | none => some x := by
  induction l generalizing x with
  | nil => rfl
  | cons y rest ih =>
    rw [List.getLast?_cons_cons, ih y]
    cases hr : rest.getLast? with
    | some z => simp
    | none => simp

theorem lookupFst_foldl_objAssign (contribs : List (List (String × JSVal)))
    (m : List (String × JSVal)) (k : String)
    (h : ∀ a ∈ contribs, (entryKeys a).Nodup) :
    lookupFst k (contribs.foldl objAssign m) =
      match (contribs.filterMap (lookupFst k)).getLast? with
      | some v => some v
      | none => lookupFst k m := by
  induction contribs generalizing m with
  | nil => simp
  | cons a rest ih =>
    have ha : (entryKeys a).Nodup := h a (by simp)
    have hrest : ∀ b ∈ rest, (entryKeys b).Nodup := fun b hb => h b (by simp [hb])
    simp only [List.foldl_cons]
    rw [ih (objAssign m a) hrest]
    cases hfa : lookupFst k a with
    | none =>
      simp only [List.filterMap_cons, hfa]
      cases hr : (rest.filterMap (lookupFst k)).getLast? with
      | some v => simp
      | none => simp [lookupFst_objAssign a m k ha, hfa]
    | some v =>
      simp only [List.filterMap_cons, hfa]
      rw [getLast?_cons' v]
      cases hr : (rest.filterMap (lookupFst k)).getLast? with
      | some w => simp
      | none => simp [lookupFst_objAssign a m k ha, hfa]

theorem entryKeys_setEntry (l : List (String × JSVal)) (k : String)
    (v : JSVal) :
    entryKeys (setEntry l k v) =
      if l.any (fun e => e.1 = k) then entryKeys l else entryKeys l ++ [k] := by
  unfold setEntry
  by_cases h : l.any (fun e => e.1 = k) <;> simp only [h, if_true, if_false]
  · simp only [entryKeys, List.map_map]
    congr 1
    funext e
    by_cases he : e.1 = k <;> simp [he, Function.comp]
  · simp [entryKeys]

theorem nodup_entryKeys_setEntry (l : List (String × JSVal)) (k : String)
    (v : JSVal) (h : (entryKeys l).Nodup) :
    (entryKeys (setEntry l k v)).Nodup := by
  rw [entryKeys_setEntry]
  by_cases ha : l.any (fun e => e.1 = k) <;> simp only [ha, if_true, if_false]
  · exact h
  · have hk : k ∉ entryKeys l := by
      intro hc
      simp only [entryKeys, List.mem_map] at hc
      obtain ⟨e, he, hek⟩ := hc
      rw [List.any_eq_true] at ha
      exact ha ⟨e, he, by simp [hek]⟩
    refine List.Nodup.append h (List.nodup_singleton k) ?_
    intro a hal has
    simp only [List.mem_singleton] at has
    subst has
    exact hk hal

/-! ## Rule-loop lemmas -/

theorem evaluateCondition_isSome (c : Cond) (ctx : StyleCtx)
    (h : ∀ b, c ≠ .bool b) : (evaluateCondition c ctx).isSome := by
  cases c with
  | bool b => exact absurd rfl (h b)
  | fn f => simp [evaluateCondition]
  | str s =>
    simp only [evaluateCondition]
    split
    · simp
    · split <;> simp

theorem processRulesAux_eq (rules : List SRule) (ctx : StyleCtx)
    (h : noBoolConds rules = true) :
    ∀ styles attrs sc cc,
      processRulesAux rules ctx styles attrs sc cc =
        some (styles ++ rules.filterMap (styleOf ctx),
          (activeContribs rules ctx).foldl objAssign attrs,
          sc + totalStyleCost rules, cc + totalCondCost rules) := by
  induction rules with
  | nil =>
    intro styles attrs sc cc
    simp [processRulesAux, activeContribs, totalStyleCost, totalCondCost]
  | cons r rest ih =>
    intro styles attrs sc cc
    simp only [noBoolConds, List.all_cons, Bool.and_eq_true] at h
    have hr : noBoolConds rest = true := h.2
    cases r with
    | style st =>
      rw [show processRulesAux (SRule.style st :: rest) ctx styles attrs sc cc
          = processRulesAux rest ctx (styles ++ [resolveStyle st ctx]) attrs
            (sc + styleCost st) cc from rfl]
      rw [ih hr]
      simp [styleOf, activeContribs, attrContrib, List.filterMap_cons,
        totalStyleCost, totalCondCost, Nat.add_assoc]
    | attrsR a =>
      rw [show processRulesAux (SRule.attrsR a :: rest) ctx styles attrs sc cc
          = processRulesAux rest ctx styles (objAssign attrs a) sc cc from rfl]
      rw [ih hr]
      simp [styleOf, activeContribs, attrContrib, List.filterMap_cons,
        totalStyleCost, totalCondCost]
    | whenR c a =>
      have hcb : ∀ b, c ≠ .bool b := by
        intro b hc
        subst hc
        simpa using h.1
      obtain ⟨b, hb⟩ := Option.isSome_iff_exists.mp (evaluateCondition_isSome c ctx hcb)
      rw [show processRulesAux (SRule.whenR c a :: rest) ctx styles attrs sc cc
          = match evaluateCondition c ctx with
            | none => none
            | some b =>
              processRulesAux rest ctx styles (if b then objAssign attrs a else attrs)
                sc (cc + condCost c) from rfl]
      rw [hb]
      simp only []
      rw [ih hr]
      cases b with
      | true =>
        simp [styleOf, activeContribs, attrContrib, List.filterMap_cons, hb,
          totalStyleCost, totalCondCost, Nat.add_assoc]
      | false =>
        simp [styleOf, activeContribs, attrContrib, List.filterMap_cons, hb,
          totalStyleCost, totalCondCost, Nat.add_assoc]

/-- **C3.** For every rule list and context (well-formed: no boolean
condition, attribute payloads with unique keys), the resolution
iterates rules strictly in insertion order: the style list is exactly
the style-rule results in insertion order, and the attribute object is
the left-to-right merge of the contributions of triggered conditional
rules and unconditional attribute rules in one shared chain — on a key
collision the value is the *last* contributing rule's value. -/
theorem claim_rule_order_c3 (rules : List SRule) (ctx : StyleCtx)
    (hB : noBoolConds rules = true)
    (hN : ∀ a ∈ activeContribs rules ctx, (entryKeys a).Nodup) :
    ∃ styles attrs sc cc,
      processRules rules ctx = some (styles, attrs, sc, cc) ∧
      styles = rules.filterMap (styleOf ctx) ∧
      (∀ k, lookupFst k attrs =
        ((activeContribs rules ctx).filterMap (lookupFst k)).getLast?) := by
  refine ⟨_, _, _, _, processRulesAux_eq rules ctx hB [] [] 0 0, by simp, ?_⟩
  intro k
  rw [lookupFst_foldl_objAssign _ _ _ hN]
  cases h : ((activeContribs rules ctx).filterMap (lookupFst k)).getLast? <;>
    simp [lookupFst]

/-- Witness for C3: a builder with a style rule, a triggered and an
untriggered conditional rule and an unconditional attribute rule; the
triggered conditional and the unconditional rule collide on key `"x"`
and the later (unconditional) one wins. -/
theorem claim_rule_order_c3_witness :
    (∃ styles attrs sc cc,
      processRules
        [SRule.style (.lit (vObj 0 (.cons "color" (vStr "red") .nil))),
         SRule.whenR (.str "active") [("x", vNum 1), ("y", vNum 2)],
         SRule.whenR (.str "missing") [("z", vNum 9)],
         SRule.attrsR [("x", vNum 3)]]
        ⟨vObj 1 .nil, [("active", vBool true)], "ios"⟩ =
        some (styles, attrs, sc, cc) ∧
      styles = [SRule.style (.lit (vObj 0 (.cons "color" (vStr "red") .nil))),
         SRule.whenR (.str "active") [("x", vNum 1), ("y", vNum 2)],
         SRule.whenR (.str "missing") [("z", vNum 9)],
         SRule.attrsR [("x", vNum 3)]].filterMap
          (styleOf ⟨vObj 1 .nil, [("active", vBool true)], "ios"⟩) ∧
      (∀ k, lookupFst k attrs =
        ((activeContribs
          [SRule.style (.lit (vObj 0 (.cons "color" (vStr "red") .nil))),
           SRule.whenR (.str "active") [("x", vNum 1), ("y", vNum 2)],
           SRule.whenR (.str "missing") [("z", vNum 9)],
           SRule.attrsR [("x", vNum 3)]]
          ⟨vObj 1 .nil, [("active", vBool true)], "ios"⟩).filterMap
            (lookupFst k)).getLast?)) ∧
    propsGet [("x", vNum 1), ("y", vNum 2)] "x" = vNum 1 := by
  constructor
  · exact claim_rule_order_c3 _ _ (by decide) (by decide)
  · decide

/-! ## Hash lemmas -/

theorem hashProps_congr (keys : List String) (p1 p2 : List (String × JSVal))
    (h : ∀ k ∈ keys, hashedVal (propsGet p1 k) = hashedVal (propsGet p2 k)) :
    ∀ acc, hashProps p1 keys acc = hashProps p2 keys acc := by
  induction keys with
  | nil => intro acc; rfl
  | cons k rest ih =>
    intro acc
    have hk := h k (by simp)
    have hrest : ∀ k' ∈ rest,
        hashedVal (propsGet p1 k') = hashedVal (propsGet p2 k') :=
      fun k' hk' => h k' (by simp [hk'])
    by_cases c1 : (!(jsEq (propsGet p1 k) vUndef) && isPrimVal (propsGet p1 k)) = true <;>
    by_cases c2 : (!(jsEq (propsGet p2 k) vUndef) && isPrimVal (propsGet p2 k)) = true
    · have hveq : propsGet p1 k = propsGet p2 k := by
        simp only [hashedVal] at hk
        rw [if_pos c1, if_pos c2] at hk
        exact Option.some.inj hk
      simp only [hashProps]
      rw [if_pos c1, if_pos c2, hveq]
      exact ih hrest _
    · exfalso
      simp only [hashedVal] at hk
      rw [if_pos c1, if_neg c2] at hk
      exact Option.noConfusion hk
    · exfalso
      simp only [hashedVal] at hk
      rw [if_neg c1, if_pos c2] at hk
      exact Option.noConfusion hk
    · simp only [hashProps]
      rw [if_neg c1, if_neg c2]
      exact ih hrest _

theorem optimizedHash_congr (ctx1 ctx2 : StyleCtx)
    (hp : ctx1.platform = ctx2.platform)
    (ht : themeIdToken ctx1.theme = themeIdToken ctx2.theme)
    (hv : ∀ k ∈ STYLE_HASH_PROPS,
      hashedVal (propsGet ctx1.props k) = hashedVal (propsGet ctx2.props k)) :
    optimizedHash ctx1 = optimizedHash ctx2 := by
  unfold optimizedHash
  rw [hp, ht]
  exact hashProps_congr _ _ _ hv _

/-- **C9.** The context hash is a function of the platform tag, the
theme identity token and the hash-relevant (defined, primitive) values
of the fixed allowlisted prop names only: two contexts agreeing on
those — in particular contexts differing only in a non-allowlisted
prop or in a prop with a non-primitive value — hash identically. -/
theorem claim_hash_lossy_c9 (ctx1 ctx2 : StyleCtx)
    (hp : ctx1.platform = ctx2.platform)
    (ht : themeIdToken ctx1.theme = themeIdToken ctx2.theme)
    (hv : ∀ k ∈ STYLE_HASH_PROPS,
      hashedVal (propsGet ctx1.props k) = hashedVal (propsGet ctx2.props k)) :
    optimizedHash ctx1 = optimizedHash ctx2 :=
  optimizedHash_congr ctx1 ctx2 hp ht hv

/-- Witness for C9: two contexts with distinct theme objects carrying
the same id token, differing in a non-allowlisted prop (`onPress`) and
in the non-primitive values of the allowlisted prop `size`, hash to
the same string. -/
theorem claim_hash_lossy_c9_witness :
    optimizedHash ⟨vObj 3 (.cons "id" (vStr "T") .nil),
      [("variant", vStr "primary"), ("onPress", vObj 9 .nil),
       ("size", vObj 4 .nil)], "ios"⟩ =
    optimizedHash ⟨vObj 5 (.cons "id" (vStr "T") .nil),
      [("variant", vStr "primary"), ("size", vNull)], "ios"⟩ :=
  claim_hash_lossy_c9 _ _ (by decide) (by decide) (by decide)

/-! ## Cache lemmas (claim C2) -/

/-- **C2.** At-most-once computation per distinct context per theme:
starting a freshly built component (empty cache), resolving once and
then resolving again with the same theme reference, the same platform
and props agreeing on the hash-relevant allowlisted values, the second
resolution returns the identical cached `{computedStyle, attrs}` entry
and performs zero style-function and zero condition-function
invocations (the first performs exactly one per function-valued style
rule and condition). -/
theorem claim_cache_at_most_once_c2 (rules : List SRule)
    (ctx1 ctx2 : StyleCtx) (tid : Nat)
    (hB : noBoolConds rules = true)
    (hth : ctx2.theme = ctx1.theme)
    (hkey : themeKey ctx1.theme = some tid)
    (hp : ctx1.platform = ctx2.platform)
    (hv : ∀ k ∈ STYLE_HASH_PROPS,
      hashedVal (propsGet ctx1.props k) = hashedVal (propsGet ctx2.props k)) :
    ∃ entry st1 st2,
      resolveOnce rules ⟨[]⟩ ctx1 =
        some (entry, st1, totalStyleCost rules, totalCondCost rules) ∧
      resolveOnce rules st1 ctx2 = some (entry, st2, 0, 0) := by
  have hhash : optimizedHash ctx2 = optimizedHash ctx1 :=
    (optimizedHash_congr ctx1 ctx2 hp (by rw [hth]) hv).symm
  have hPR : processRules rules ctx1 =
      some (rules.filterMap (styleOf ctx1),
        (activeContribs rules ctx1).foldl objAssign [],
        totalStyleCost rules, totalCondCost rules) := by
    rw [processRules, processRulesAux_eq rules ctx1 hB [] [] 0 0]
    simp
  set h1 := optimizedHash ctx1 with hh1
  set entry : CacheEntry :=
    (flattenStyles (rules.filterMap (styleOf ctx1)),
     (activeContribs rules ctx1).foldl objAssign []) with hentry
  refine ⟨entry, ⟨[(tid, ⟨300, [(h1, entry)]⟩)]⟩, ⟨[(tid, ⟨300, [(h1, entry)]⟩)]⟩, ?_, ?_⟩
  · simp [resolveOnce, hkey, getPartition, LRUCache.get, setPartition,
      LRUCache.set, hPR, hentry]
  · simp [resolveOnce, hth, hkey, hhash, getPartition, LRUCache.get,
      setPartition]

/-- Witness fixture for C2: one function-valued style rule and one
function-valued condition. -/
def c2Rules : List SRule :=
  [SRule.style (.fn (fun c => getProp c.theme "bg")),
   SRule.whenR (.fn (fun c => truthy (propsGet c.props "active"))) [("a", vNum 1)]]

/-- Witness fixture for C2: first resolution context. -/
def c2CtxA : StyleCtx :=
  ⟨vObj 11 (.cons "bg" (vStr "white") .nil),
   [("variant", vStr "primary"), ("noise", vNum 1)], "ios"⟩

/-- Witness fixture for C2: second context, same theme reference and
platform, differing only in the non-allowlisted prop `noise`. -/
def c2CtxB : StyleCtx :=
  ⟨vObj 11 (.cons "bg" (vStr "white") .nil),
   [("variant", vStr "primary")], "ios"⟩

/-- Witness for C2: with one style function and one condition function,
the first resolution performs exactly one invocation of each, and the
second resolution (same theme reference, same platform, equal
allowlisted props) returns the identical cached entry with zero
invocations — the counters stay at 1. -/
theorem claim_cache_at_most_once_c2_witness :
    ∃ entry st1 st2,
      resolveOnce c2Rules ⟨[]⟩ c2CtxA = some (entry, st1, 1, 1) ∧
      resolveOnce c2Rules st1 c2CtxB = some (entry, st2, 0, 0) :=
  claim_cache_at_most_once_c2 c2Rules c2CtxA c2CtxB 11
    (by decide) (by decide) (by decide) (by decide) (by decide)

/-! ## Theme store (claim C1) -/

/-- **C1.** For every `setTheme(input)` call on a store whose listener
set is duplicate-free (the `Set` invariant): the input is resolved to a
partial (the updater applied to the previous snapshot), deep-merged
into the previous snapshot, the stored snapshot replaced by the merged
result; the returned value is the merged snapshot and
`getTheme`/`getSnapshot` read exactly it afterwards; the notification
pass is the listener set at call time, so every registered listener is
invoked exactly once and nobody else is invoked; and a listener
subscribed twice is registered (hence invoked) once. -/
theorem claim_settheme_c1 (s : StoreState) (input : ThemeInput)
    (hnd : s.listeners.Nodup) :
    ((setTheme s input).2.1 =
      deepMerge s.theme (resolveInput input s.theme) s.fresh) ∧
    (setTheme s input).1.theme = (setTheme s input).2.1 ∧
    getTheme (setTheme s input).1 = (setTheme s input).2.1 ∧
    getSnapshot (setTheme s input).1 = (setTheme s input).2.1 ∧
    (setTheme s input).2.2 = s.listeners ∧
    (∀ l ∈ s.listeners, ((setTheme s input).2.2).count l = 1) ∧
    (∀ l, l ∉ s.listeners → ((setTheme s input).2.2).count l = 0) ∧
    (∀ l, ((subscribe (subscribe s l) l).listeners).count l = 1) := by
  refine ⟨rfl, rfl, rfl, rfl, rfl, ?_, ?_, ?_⟩
  · intro l hl
    exact List.count_eq_one_of_mem hnd hl
  · intro l hl
    exact List.count_eq_zero_of_not_mem hl
  · intro l
    by_cases hl : l ∈ s.listeners
    · simp only [subscribe, if_pos hl]
      exact List.count_eq_one_of_mem hnd hl
    · simp only [subscribe, if_neg hl]
      have hmem : l ∈ s.listeners ++ [l] := by simp
      rw [if_pos hmem]
      rw [List.count_append]
      rw [List.count_eq_zero_of_not_mem hl]
      simp

/-- Witness for C1: a store with two listeners, updated by an updater
function reading the previous snapshot. -/
theorem claim_settheme_c1_witness :
    ((setTheme ⟨vObj 0 (.cons "k" (vNum 1) .nil), [5, 9], 1⟩
        (.updater (fun prev => vObj 1 (.cons "k2" (getProp prev "k") .nil)))).2.1 =
      deepMerge (vObj 0 (.cons "k" (vNum 1) .nil))
        (resolveInput
          (.updater (fun prev => vObj 1 (.cons "k2" (getProp prev "k") .nil)))
          (vObj 0 (.cons "k" (vNum 1) .nil))) 1) ∧
    (setTheme ⟨vObj 0 (.cons "k" (vNum 1) .nil), [5, 9], 1⟩
        (.updater (fun prev => vObj 1 (.cons "k2" (getProp prev "k") .nil)))).1.theme =
      (setTheme ⟨vObj 0 (.cons "k" (vNum 1) .nil), [5, 9], 1⟩
        (.updater (fun prev => vObj 1 (.cons "k2" (getProp prev "k") .nil)))).2.1 ∧
    getTheme (setTheme ⟨vObj 0 (.cons "k" (vNum 1) .nil), [5, 9], 1⟩
        (.updater (fun prev => vObj 1 (.cons "k2" (getProp prev "k") .nil)))).1 =
      (setTheme ⟨vObj 0 (.cons "k" (vNum 1) .nil), [5, 9], 1⟩
        (.updater (fun prev => vObj 1 (.cons "k2" (getProp prev "k") .nil)))).2.1 ∧
    getSnapshot (setTheme ⟨vObj 0 (.cons "k" (vNum 1) .nil), [5, 9], 1⟩
        (.updater (fun prev => vObj 1 (.cons "k2" (getProp prev "k") .nil)))).1 =
      (setTheme ⟨vObj 0 (.cons "k" (vNum 1) .nil), [5, 9], 1⟩
        (.updater (fun prev => vObj 1 (.cons "k2" (getProp prev "k") .nil)))).2.1 ∧
    (setTheme ⟨vObj 0 (.cons "k" (vNum 1) .nil), [5, 9], 1⟩
        (.updater (fun prev => vObj 1 (.cons "k2" (getProp prev "k") .nil)))).2.2 = [5, 9] ∧
    (∀ l ∈ [5, 9],
      ((setTheme ⟨vObj 0 (.cons "k" (vNum 1) .nil), [5, 9], 1⟩
        (.updater (fun prev => vObj 1 (.cons "k2" (getProp prev "k") .nil)))).2.2).count l = 1) ∧
    (∀ l, l ∉ [5, 9] →
      ((setTheme ⟨vObj 0 (.cons "k" (vNum 1) .nil), [5, 9], 1⟩
        (.updater (fun prev => vObj 1 (.cons "k2" (getProp prev "k") .nil)))).2.2).count l = 0) ∧
    (∀ l, ((subscribe (subscribe ⟨vObj 0 (.cons "k" (vNum 1) .nil), [5, 9], 1⟩ l) l).listeners).count l = 1) :=
  claim_settheme_c1 ⟨vObj 0 (.cons "k" (vNum 1) .nil), [5, 9], 1⟩
    (.updater (fun prev => vObj 1 (.cons "k2" (getProp prev "k") .nil)))
    (by decide)

/-! ## Render prop assembly (claim C10) -/

/-- **C10.** A `style` key contributed by the merged rule attrs never
reaches the rendered element: the element's `style` prop is always the
computed style (or `[computedStyle, directlyPassedStyle]` when a style
prop is passed directly), an expression independent of the `attrs`
argument — in particular unchanged when a `style` entry is written
into the rule attrs. -/
theorem claim_attrs_style_ignored_c10 (attrs props : List (String × JSVal))
    (cs refv : JSVal) (fresh : Nat) :
    (propsGet (stylizedRender attrs props cs refv fresh) "style" =
      (if truthy (propsGet props "style") then
        vArr fresh (.cons cs (.cons (propsGet props "style") .nil))
      else cs)) ∧
    (∀ sv, propsGet
        (stylizedRender (setEntry attrs "style" sv) props cs refv fresh) "style" =
      propsGet (stylizedRender attrs props cs refv fresh) "style") := by
  constructor
  · simp only [stylizedRender]
    exact propsGet_setEntry_self _ _ _
  · intro sv
    simp only [stylizedRender]
    rw [propsGet_setEntry_self, propsGet_setEntry_self]

/-! ## Ref override (claim C7) -/

/-- **C7 counterexample.** Two conditional rules carrying refs: the
first one's condition is false for the context, the second one's is
true.  The claim says the element's ref is the last *triggered* rule's
ref (`"r2"`); the code returns the first `when` rule's ref (`"r1"`)
without consulting any condition. -/
theorem claim_ref_override_c7_counterexample :
    evaluateCondition (.str "missing")
      ⟨vObj 0 .nil, [("active", vBool true)], "ios"⟩ = some false ∧
    evaluateCondition (.str "active")
      ⟨vObj 0 .nil, [("active", vBool true)], "ios"⟩ = some true ∧
    resolvedRef
      [SRule.whenR (.str "missing") [("ref", vStr "r1")],
       SRule.whenR (.str "active") [("ref", vStr "r2")]]
      (vStr "fwd") = vStr "r1" ∧
    vStr "r1" ≠ vStr "r2" := by
  refine ⟨by decide, by decide, by decide, by decide⟩

/-- **C7 amended.** The rendered element's ref is the *first* `when`
rule in insertion order whose attrs include a truthy `ref`, regardless
of whether any condition evaluates true (conditions are never
consulted); only when no `when` rule carries a truthy ref is the
externally forwarded ref used. -/
theorem claim_ref_override_c7_amended (rules : List SRule) (fwd : JSVal) :
    resolvedRef rules fwd = (rules.filterMap whenRefOf).headD fwd := by
  induction rules with
  | nil => rfl
  | cons r rest ih =>
    cases r with
    | style st => simpa [resolvedRef, whenRefOf, List.filterMap_cons] using ih
    | attrsR a => simpa [resolvedRef, whenRefOf, List.filterMap_cons] using ih
    | whenR c a =>
      by_cases h : truthy (propsGet a "ref") = true
      · simp [resolvedRef, whenRefOf, List.filterMap_cons, h]
      · simp only [Bool.not_eq_true] at h
        simp [resolvedRef, whenRefOf, List.filterMap_cons, h, ih]

/-! ## LRU lemmas (claim C8) -/

/-- The JavaScript `Map`-content observer of an `LRUCache`:
`map.get(key)` without the LRU promotion. -/
def mapLookup [DecidableEq K] (c : LRUCache K V) (k : K) : Option V :=
  (c.entries.find? (fun e => e.1 = k)).map (fun e => e.2)

theorem find?_append_left_none {α : Type _} (p : α → Bool) (l l' : List α)
    (h : l.find? p = none) : (l ++ l').find? p = l'.find? p := by
  induction l with
  | nil => rfl
  | cons e rest ih =>
    cases hp : p e with
    | true => simp [List.find?_cons, hp] at h
    | false =>
      simp only [List.cons_append, List.find?_cons, hp] at h ⊢
      exact ih h

theorem find?_filter_out {K V : Type _} [DecidableEq K]
    (l : List (K × V)) (k : K) :
    (l.filter (fun x => ¬(x.1 = k))).find? (fun e => e.1 = k) = none := by
  rw [List.find?_eq_none]
  intro x hx
  rw [List.mem_filter] at hx
  simpa using hx.2

theorem find?_filter_out_ne {K V : Type _} [DecidableEq K]
    (l : List (K × V)) (k k' : K) (h : k' ≠ k) :
    (l.filter (fun x => ¬(x.1 = k))).find? (fun e => e.1 = k')
      = l.find? (fun e => e.1 = k') := by
  induction l with
  | nil => rfl
  | cons e rest ih =>
    rw [List.filter_cons]
    by_cases he : e.1 = k
    · have he' : ¬ (e.1 = k') := fun hc => h (hc.symm.trans he)
      rw [if_neg (by simp [he])]
      rw [ih, List.find?_cons]
      simp [he']
    · rw [if_pos (by simp [he])]
      rw [List.find?_cons, List.find?_cons]
      by_cases he' : e.1 = k'
      · simp [he']
      · simp only [decide_eq_false he']
        exact ih

theorem any_false_of_mapLookup_none {K V : Type _} [DecidableEq K]
    (c : LRUCache K V) (k : K) (h : mapLookup c k = none) :
    c.entries.any (fun e => e.1 = k) = false := by
  cases hf : c.entries.find? (fun e => e.1 = k) with
  | some e => rw [mapLookup, hf] at h; simp at h
  | none =>
    rw [List.find?_eq_none] at hf
    by_contra hc
    rw [Bool.not_eq_false, List.any_eq_true] at hc
    obtain ⟨x, hx, hpx⟩ := hc
    exact hf x hx hpx

theorem any_true_of_mapLookup_some {K V : Type _} [DecidableEq K]
    (c : LRUCache K V) (k : K) (h : mapLookup c k ≠ none) :
    c.entries.any (fun e => e.1 = k) = true := by
  cases hf : c.entries.find? (fun e => e.1 = k) with
  | none => rw [mapLookup, hf] at h; simp at h
  | some e =>
    rw [List.any_eq_true]
    have hp := List.find?_some hf
    have hm := List.mem_of_find?_eq_some hf
    exact ⟨e, hm, hp⟩

/-- **C8.** True least-recently-used behaviour of the cache: `get`
returns the stored value and only reorders (promotes the entry to the
most-recently-used end, preserving the map content); `set` stores the
value, re-promotes on overwrite of an existing key, evicts exactly the
single oldest entry when the key is new and the cache is at capacity,
and evicts nothing below capacity; concretely with capacity 2,
inserting `a,b,c` evicts `a`, and a `get b` before inserting `d` makes
`d`'s insertion evict `c`, not `b`. -/
theorem claim_lru_c8 {K V : Type} [DecidableEq K] (c : LRUCache K V)
    (k k' : K) (v : V) (hnd : (c.entries.map Prod.fst).Nodup) :
    ((c.get k).1 = mapLookup c k) ∧
    (mapLookup (c.get k).2 k' = mapLookup c k') ∧
    (mapLookup c k = some v → (c.get k).2.entries.getLast? = some (k, v)) ∧
    (mapLookup (c.set k v) k = some v) ∧
    (mapLookup c k ≠ none → (c.set k v).entries.getLast? = some (k, v)) ∧
    (k' ≠ k → mapLookup c k = none → c.limit ≤ c.entries.length →
      mapLookup (c.set k v) k' =
        (if c.entries.head?.map Prod.fst = some k' then none
         else mapLookup c k')) ∧
    (k' ≠ k → mapLookup c k = none → c.entries.length < c.limit →
      mapLookup (c.set k v) k' = mapLookup c k') ∧
    ((((⟨2, []⟩ : LRUCache String Nat).set "a" 1).set "b" 2).set "c" 3).entries
      = [("b", 2), ("c", 3)] ∧
    ((((((⟨2, []⟩ : LRUCache String Nat).set "a" 1).set "b" 2).set "c" 3).get
        "b").2.set "d" 4).entries = [("b", 2), ("d", 4)] := by
  have find?_append : ∀ {α : Type} (p : α → Bool) (l l' : List α),
      (l ++ l').find? p =
        match l.find? p with
        | some a => some a
        | none => l'.find? p := by
    intro α p l l'
    induction l with
    | nil => rfl
    | cons e rest ih =>
      rw [List.cons_append, List.find?_cons, List.find?_cons]
      cases hp : p e with
      | true => simp
      | false => simpa using ih
  have find?_none_of_any_false : ∀ {α : Type} (p : α → Bool) (l : List α),
      l.any p = false → l.find? p = none := by
    intro α p l h
    rw [List.find?_eq_none]
    intro x hx hpx
    have : l.any p = true := List.any_eq_true.mpr ⟨x, hx, hpx⟩
    rw [h] at this
    exact Bool.noConfusion this
  have hgetfst : (c.get k).1 = mapLookup c k := by
    rw [LRUCache.get, mapLookup]
    cases hf : c.entries.find? (fun e => e.1 = k) <;> simp
  refine ⟨hgetfst, ?_, ?_, ?_, ?_, ?_, ?_, by decide, by decide⟩
  · -- get only reorders: the map content is unchanged
    rw [LRUCache.get]
    cases hf : c.entries.find? (fun e => e.1 = k) with
    | none => simp
    | some e =>
      simp only [mapLookup, find?_append]
      by_cases hk : k' = k
      · subst hk
        rw [find?_filter_out c.entries k', hf]
        simp [List.find?_cons]
      · rw [find?_filter_out_ne c.entries k k' hk]
        cases hm : c.entries.find? (fun e => e.1 = k') with
        | some x => simp
        | none =>
          simp [List.find?_cons, decide_eq_false (fun hc : k = k' => hk hc.symm)]
  · -- get promotes the found entry to the most-recently-used end
    intro hv
    rw [LRUCache.get]
    cases hf : c.entries.find? (fun e => e.1 = k) with
    | none => rw [mapLookup, hf] at hv; simp at hv
    | some e =>
      have he2 : e.2 = v := by
        rw [mapLookup, hf] at hv
        simpa using hv
      simp [List.getLast?_concat, he2]
  · -- set stores the value
    rw [LRUCache.set]
    by_cases hh : c.entries.any (fun e => e.1 = k) = true
    · rw [if_pos hh]
      simp only [mapLookup, find?_append]
      rw [find?_filter_out c.entries k]
      simp [List.find?_cons]
    · rw [if_neg hh]
      have hfn : c.entries.find? (fun e => e.1 = k) = none :=
        find?_none_of_any_false _ _ (by rwa [Bool.not_eq_true] at hh)
      by_cases hcap : c.limit ≤ c.entries.length
      · rw [if_pos hcap]
        simp only [mapLookup, find?_append]
        have htail : c.entries.tail.find? (fun e => e.1 = k) = none := by
          rw [List.find?_eq_none]
          intro x hx hpx
          rw [List.find?_eq_none] at hfn
          exact hfn x (List.mem_of_mem_tail hx) hpx
        rw [htail]
        simp [List.find?_cons]
      · rw [if_neg hcap]
        simp only [mapLookup, find?_append, hfn]
        simp [List.find?_cons]
  · -- set on an existing key re-promotes to the most-recently-used end
    intro hv
    rw [LRUCache.set, if_pos (any_true_of_mapLookup_some c k hv)]
    simp [List.getLast?_concat]
  · -- set of a new key at capacity evicts exactly the oldest entry
    intro hne hnone hcap
    have hany := any_false_of_mapLookup_none c k hnone
    rw [LRUCache.set, if_neg (by simp [hany]), if_pos hcap]
    simp only [mapLookup, find?_append]
    have h1 : (List.find? (fun e => e.1 = k') [(k, v)]) = none := by
      simp [List.find?_cons, decide_eq_false (fun hc : k = k' => hne hc.symm)]
    cases hl : c.entries with
    | nil => simp [h1, mapLookup]
    | cons e t =>
      simp only [List.tail_cons]
      by_cases hek : e.1 = k'
      · have hk'nt : t.find? (fun x => x.1 = k') = none := by
          rw [List.find?_eq_none]
          intro x hx hpx
          rw [hl, List.map_cons, List.nodup_cons] at hnd
          apply hnd.1
          rw [hek]
          have : x.1 = k' := by simpa using hpx
          exact this ▸ List.mem_map_of_mem Prod.fst hx
        rw [hk'nt, h1]
        simp [List.head?, hek]
      · rw [if_neg (by simp [List.head?, hek])]
        simp only [mapLookup, hl, List.find?_cons, decide_eq_false hek]
        cases hm : t.find? (fun x => x.1 = k') with
        | some x => simp
        | none => simp [h1, decide_eq_false (fun hc : k = k' => hne hc.symm)]
  · -- set of a new key below capacity evicts nothing
    intro hne hnone hcap
    have hany := any_false_of_mapLookup_none c k hnone
    rw [LRUCache.set, if_neg (by simp [hany]), if_neg (by omega)]
    simp only [mapLookup, find?_append]
    cases hm : c.entries.find? (fun e => e.1 = k') with
    | some x => simp
    | none =>
      simp [List.find?_cons, decide_eq_false (fun hc : k = k' => hne hc.symm)]

/-- Witness for C8 at a concrete capacity-2 cache holding `b, c`. -/
theorem claim_lru_c8_witness :
    (((⟨2, [("b", 2), ("c", 3)]⟩ : LRUCache String Nat).get "b").1 =
      mapLookup (⟨2, [("b", 2), ("c", 3)]⟩ : LRUCache String Nat) "b") ∧
    (mapLookup ((⟨2, [("b", 2), ("c", 3)]⟩ : LRUCache String Nat).get "b").2 "c" =
      mapLookup (⟨2, [("b", 2), ("c", 3)]⟩ : LRUCache String Nat) "c") ∧
    (mapLookup (⟨2, [("b", 2), ("c", 3)]⟩ : LRUCache String Nat) "b" = some 7 →
      ((⟨2, [("b", 2), ("c", 3)]⟩ : LRUCache String Nat).get
        "b").2.entries.getLast? = some ("b", 7)) ∧
    (mapLookup ((⟨2, [("b", 2), ("c", 3)]⟩ : LRUCache String Nat).set "b" 7) "b" =
      some 7) ∧
    (mapLookup (⟨2, [("b", 2), ("c", 3)]⟩ : LRUCache String Nat) "b" ≠ none →
      ((⟨2, [("b", 2), ("c", 3)]⟩ : LRUCache String Nat).set
        "b" 7).entries.getLast? = some ("b", 7)) ∧
    ("c" ≠ "b" →
      mapLookup (⟨2, [("b", 2), ("c", 3)]⟩ : LRUCache String Nat) "b" = none →
      (⟨2, [("b", 2), ("c", 3)]⟩ : LRUCache String Nat).limit ≤
        (⟨2, [("b", 2), ("c", 3)]⟩ : LRUCache String Nat).entries.length →
      mapLookup ((⟨2, [("b", 2), ("c", 3)]⟩ : LRUCache String Nat).set "b" 7) "c" =
        (if (⟨2, [("b", 2), ("c", 3)]⟩ :
            LRUCache String Nat).entries.head?.map Prod.fst = some "c" then none
         else mapLookup (⟨2, [("b", 2), ("c", 3)]⟩ : LRUCache String Nat) "c")) ∧
    ("c" ≠ "b" →
      mapLookup (⟨2, [("b", 2), ("c", 3)]⟩ : LRUCache String Nat) "b" = none →
      (⟨2, [("b", 2), ("c", 3)]⟩ : LRUCache String Nat).entries.length <
        (⟨2, [("b", 2), ("c", 3)]⟩ : LRUCache String Nat).limit →
      mapLookup ((⟨2, [("b", 2), ("c", 3)]⟩ : LRUCache String Nat).set "b" 7) "c" =
        mapLookup (⟨2, [("b", 2), ("c", 3)]⟩ : LRUCache String Nat) "c") ∧
    ((((⟨2, []⟩ : LRUCache String Nat).set "a" 1).set "b" 2).set "c" 3).entries
      = [("b", 2), ("c", 3)] ∧
    ((((((⟨2, []⟩ : LRUCache String Nat).set "a" 1).set "b" 2).set "c" 3).get
        "b").2.set "d" 4).entries = [("b", 2), ("d", 4)] :=
  claim_lru_c8 (⟨2, [("b", 2), ("c", 3)]⟩ : LRUCache String Nat) "b" "c" 7
    (by decide)

/-! ## Deep-merge per-key lemmas (claim C4) -/

theorem fieldsLookup_eq_lookupFst (fs : JSFields) (k : String) :
    fieldsLookup fs k = lookupFst k (fieldsToList fs) := by
  cases fs with
  | nil => rfl
  | cons k0 v rest =>
    rw [fieldsLookup, fieldsToList, lookupFst]
    by_cases h : k0 = k
    · simp [h]
    · simp only [if_neg h, if_neg (by simpa using h)]
      exact fieldsLookup_eq_lookupFst rest k

/-- Every exit of `deepMergeF` either returns `base` itself or reports
a change. -/
theorem deepMergeF_shape (b p : JSVal) (f : Nat) :
    (deepMergeF b p f).1 = b ∨ (deepMergeF b p f).2.1 = true := by
  rw [deepMergeF.eq_def]
  split
  split
  · left; rfl
  split
  · left; rfl
  split
  · right; rfl
  split
  · right; rfl
  cases p with
  | vObj pid pfs =>
    by_cases hr : (mergeFields b pfs (copyEntries b) false f).2.1 = true
    · right; simp [hr]
    · left; simp [hr]
  | vArr aid aes =>
    by_cases hr : (mergeElems b aes 0 (copyEntries b) false f).2.1 = true
    · right; simp [hr]
    · left; simp [hr]
  | vNull => right; rfl
  | vUndef => right; rfl
  | vBool b0 => right; rfl
  | vNum n => right; rfl
  | vStr s => right; rfl

theorem deepMergeF_not_changed (b p : JSVal) (f : Nat)
    (h : (deepMergeF b p f).2.1 = false) : (deepMergeF b p f).1 = b := by
  rcases deepMergeF_shape b p f with h1 | h1
  · exact h1
  · rw [h1] at h
    exact Bool.noConfusion h

/-- The `mutated` flag never resets. -/
theorem mergeFields_mut_true (base : JSVal) (pfs : JSFields)
    (acc : List (String × JSVal)) (f : Nat) :
    (mergeFields base pfs acc true f).2.1 = true := by
  cases pfs with
  | nil => rfl
  | cons k pv rest =>
    rw [mergeFields]
    by_cases h1 : jsEq pv (getProp base k) = true
    · rw [if_pos h1]; exact mergeFields_mut_true base rest acc f
    · rw [if_neg h1]
      by_cases h2 : mergeGuard pv (getProp base k) = true
      · rw [if_pos h2]
        by_cases h3 : (deepMergeF (getProp base k) pv f).2.1 = true
        · simp only [h3, if_true]
          exact mergeFields_mut_true base rest _ _
        · simp only [h3, Bool.false_eq_true, if_false]
          exact mergeFields_mut_true base rest _ _
      · rw [if_neg h2]; exact mergeFields_mut_true base rest _ _

/-- If the loop reports no mutation, the accumulator was never
written. -/
theorem mergeFields_no_mut (base : JSVal) (pfs : JSFields)
    (acc : List (String × JSVal)) (mutd : Bool) (f : Nat)
    (h : (mergeFields base pfs acc mutd f).2.1 = false) :
    (mergeFields base pfs acc mutd f).1 = acc := by
  cases pfs with
  | nil => rfl
  | cons k pv rest =>
    rw [mergeFields] at h ⊢
    by_cases h1 : jsEq pv (getProp base k) = true
    · rw [if_pos h1] at h ⊢
      exact mergeFields_no_mut base rest _ _ _ h
    · rw [if_neg h1] at h ⊢
      by_cases h2 : mergeGuard pv (getProp base k) = true
      · rw [if_pos h2] at h ⊢
        by_cases h3 : (deepMergeF (getProp base k) pv f).2.1 = true
        · simp only [h3, if_true] at h
          rw [mergeFields_mut_true base rest _ _] at h
          exact Bool.noConfusion h
        · simp only [h3, Bool.false_eq_true, if_false] at h ⊢
          exact mergeFields_no_mut base rest _ _ _ h
      · rw [if_neg h2] at h ⊢
        rw [mergeFields_mut_true base rest _ _] at h
        exact Bool.noConfusion h

/-- Keys not occurring in `partial` are never written by the loop. -/
theorem mergeFields_preserve (base : JSVal) (pfs : JSFields) (k : String)
    (h : k ∉ (fieldsToList pfs).map Prod.fst)
    (acc : List (String × JSVal)) (mutd : Bool) (f : Nat) :
    lookupFst k (mergeFields base pfs acc mutd f).1 = lookupFst k acc := by
  cases pfs with
  | nil => rfl
  | cons k0 pv rest =>
    simp only [fieldsToList, List.map_cons, List.mem_cons, not_or] at h
    have hk0 : k ≠ k0 := fun hc => h.1 hc
    have hrest := h.2
    rw [mergeFields]
    by_cases h1 : jsEq pv (getProp base k0) = true
    · rw [if_pos h1]
      exact mergeFields_preserve base rest k hrest _ _ _
    · rw [if_neg h1]
      by_cases h2 : mergeGuard pv (getProp base k0) = true
      · rw [if_pos h2]
        by_cases h3 : (deepMergeF (getProp base k0) pv f).2.1 = true
        · simp only [h3, if_true]
          rw [mergeFields_preserve base rest k hrest _ _ _]
          exact lookupFst_setEntry_ne _ _ _ _ hk0
        · simp only [h3, Bool.false_eq_true, if_false]
          exact mergeFields_preserve base rest k hrest _ _ _
      · rw [if_neg h2]
        rw [mergeFields_preserve base rest k hrest _ _ _]
        exact lookupFst_setEntry_ne _ _ _ _ hk0

/-- Per-key value selection of the merge loop: for a key `k ↦ pv` of
`partial` (keys unique), the accumulator ends up holding `base`'s value
on reference equality, a recursive merge result when the source guard
holds, and `pv` outright otherwise. -/
theorem mergeFields_key (base : JSVal) (pfs : JSFields) (k : String)
    (pv : JSVal) (acc : List (String × JSVal)) (mutd : Bool) (f : Nat)
    (hmem : (k, pv) ∈ fieldsToList pfs)
    (hnd : ((fieldsToList pfs).map Prod.fst).Nodup)
    (hacc : propsGet acc k = getProp base k) :
    (jsEq pv (getProp base k) = true →
      propsGet (mergeFields base pfs acc mutd f).1 k = getProp base k) ∧
    (jsEq pv (getProp base k) = false →
      mergeGuard pv (getProp base k) = true →
      ∃ f', propsGet (mergeFields base pfs acc mutd f).1 k
        = (deepMergeF (getProp base k) pv f').1) ∧
    (jsEq pv (getProp base k) = false →
      mergeGuard pv (getProp base k) = false →
      propsGet (mergeFields base pfs acc mutd f).1 k = pv) := by
  cases pfs with
  | nil => simp [fieldsToList] at hmem
  | cons k0 pv0 rest =>
    rw [fieldsToList] at hmem hnd
    rw [List.map_cons, List.nodup_cons] at hnd
    rcases List.mem_cons.mp hmem with heq | htail
    · injection heq with hk hpv
      subst hk
      subst hpv
      have hknr : k ∉ (fieldsToList rest).map Prod.fst := hnd.1
      rw [mergeFields]
      by_cases h1 : jsEq pv (getProp base k) = true
      · rw [if_pos h1]
        refine ⟨fun _ => ?_, fun hf _ => absurd h1 (by simp [hf]),
          fun hf _ => absurd h1 (by simp [hf])⟩
        rw [propsGet_eq_lookupFst, mergeFields_preserve base rest k hknr,
          ← propsGet_eq_lookupFst, hacc]
      · rw [if_neg h1]
        by_cases h2 : mergeGuard pv (getProp base k) = true
        · rw [if_pos h2]
          refine ⟨fun ht => absurd ht h1,
            fun _ _ => ?_, fun _ hg => absurd h2 (by simp [hg])⟩
          by_cases h3 : (deepMergeF (getProp base k) pv f).2.1 = true
          · simp only [h3, if_true]
            refine ⟨f, ?_⟩
            rw [propsGet_eq_lookupFst, mergeFields_preserve base rest k hknr,
              lookupFst_setEntry_self]
            rfl
          · simp only [h3, Bool.false_eq_true, if_false]
            refine ⟨f, ?_⟩
            have hv := deepMergeF_not_changed (getProp base k) pv f
              (by simpa using h3)
            rw [propsGet_eq_lookupFst, mergeFields_preserve base rest k hknr,
              ← propsGet_eq_lookupFst, hacc, hv]
        · rw [if_neg h2]
          refine ⟨fun ht => absurd ht h1,
            fun _ hg => absurd hg (by simp [h2]), fun _ _ => ?_⟩
          rw [propsGet_eq_lookupFst, mergeFields_preserve base rest k hknr,
            lookupFst_setEntry_self]
          rfl
    · have hkmem : k ∈ (fieldsToList rest).map Prod.fst :=
        List.mem_map_of_mem Prod.fst htail
      have hk0ne : k ≠ k0 := fun hc => hnd.1 (hc ▸ hkmem)
      rw [mergeFields]
      by_cases h1 : jsEq pv0 (getProp base k0) = true
      · rw [if_pos h1]
        exact mergeFields_key base rest k pv acc mutd f htail hnd.2 hacc
      · rw [if_neg h1]
        by_cases h2 : mergeGuard pv0 (getProp base k0) = true
        · rw [if_pos h2]
          by_cases h3 : (deepMergeF (getProp base k0) pv0 f).2.1 = true
          · simp only [h3, if_true]
            exact mergeFields_key base rest k pv _ true _ htail hnd.2
              (by rw [propsGet_setEntry_ne _ _ _ _ hk0ne, hacc])
          · simp only [h3, Bool.false_eq_true, if_false]
            exact mergeFields_key base rest k pv acc mutd _ htail hnd.2 hacc
        · rw [if_neg h2]
          exact mergeFields_key base rest k pv _ true f htail hnd.2
            (by rw [propsGet_setEntry_ne _ _ _ _ hk0ne, hacc])

theorem fieldsToList_listToFields (l : List (String × JSVal)) :
    fieldsToList (listToFields l) = l := by
  induction l with
  | nil => rfl
  | cons e rest ih =>
    rw [show listToFields (e :: rest) = .cons e.1 e.2 (listToFields rest) from rfl]
    rw [fieldsToList, ih]

/-- **C4 counterexample.** Two of the claim's clauses fail on the
code.  (a) `deepMerge({a: 5}, {a: null})`: the claim's "if either side
is absent/null, the present side wins" predicts `{a: 5}`, but the code
assigns `partial`'s `null`, yielding `{a: null}`.  (b) With the two
merge inputs themselves arrays, `deepMerge([1,2],[9])`: "arrays are
never element-merged, only replaced wholesale" predicts `[9]`, but the
code merges index-wise, yielding `[9,2]`. -/
theorem claim_deepmerge_cases_c4_counterexample :
    deepMerge (vObj 0 (.cons "a" (vNum 5) .nil))
      (vObj 1 (.cons "a" vNull .nil)) 2 = vObj 2 (.cons "a" vNull .nil) ∧
    getProp (deepMerge (vObj 0 (.cons "a" (vNum 5) .nil))
      (vObj 1 (.cons "a" vNull .nil)) 2) "a" = vNull ∧
    vNull ≠ vNum 5 ∧
    deepMerge (vArr 0 (.cons (vNum 1) (.cons (vNum 2) .nil)))
      (vArr 1 (.cons (vNum 9) .nil)) 2
      = vArr 2 (.cons (vNum 9) (.cons (vNum 2) .nil)) ∧
    vArr 2 (.cons (vNum 9) (.cons (vNum 2) .nil))
      ≠ vArr 2 (.cons (vNum 9) .nil) := by
  refine ⟨by decide, by decide, by decide, by decide, by decide⟩

/-- **C4 amended.** Per-key case analysis of `deepMerge` on two
distinct objects (keys unique): a reference-equal value is skipped
(`base`'s value survives); when both sides pass the source guard —
which holds exactly when both sides are truthy non-array objects — the
merge recurses; otherwise `partial`'s value wins outright, *including*
when that value is `null`/`undefined` (per-key arrays are likewise
replaced wholesale, never element-merged).  The absent/null-side-loses
rule holds only for the top-level merge arguments; and when the two
merge inputs are themselves arrays, the same per-key rules run over
the indices of `partial`, merging element-wise
(`deepMerge([1,2],[9]) = [9,2]`) rather than replacing wholesale. -/
theorem claim_deepmerge_cases_c4_amended (bid pid fresh : Nat)
    (bfs pfs : JSFields)
    (hne : jsEq (vObj pid pfs) (vObj bid bfs) = false)
    (hnd : ((fieldsToList pfs).map Prod.fst).Nodup)
    (k : String) (pv : JSVal) (hmem : (k, pv) ∈ fieldsToList pfs) :
    (jsEq pv (getProp (vObj bid bfs) k) = true →
      getProp (deepMerge (vObj bid bfs) (vObj pid pfs) fresh) k
        = getProp (vObj bid bfs) k) ∧
    (jsEq pv (getProp (vObj bid bfs) k) = false →
      mergeGuard pv (getProp (vObj bid bfs) k) = true →
      ∃ f', getProp (deepMerge (vObj bid bfs) (vObj pid pfs) fresh) k
        = (deepMergeF (getProp (vObj bid bfs) k) pv f').1) ∧
    (jsEq pv (getProp (vObj bid bfs) k) = false →
      mergeGuard pv (getProp (vObj bid bfs) k) = false →
      getProp (deepMerge (vObj bid bfs) (vObj pid pfs) fresh) k = pv) ∧
    (∀ a b, mergeGuard a b = (isObjV a && isObjV b)) ∧
    deepMerge (vArr 100 (.cons (vNum 1) (.cons (vNum 2) .nil)))
      (vArr 101 (.cons (vNum 9) .nil)) 102
      = vArr 102 (.cons (vNum 9) (.cons (vNum 2) .nil)) := by
  have hacc0 : propsGet (copyEntries (vObj bid bfs)) k
      = getProp (vObj bid bfs) k := by
    rw [copyEntries, propsGet_eq_lookupFst, ← fieldsLookup_eq_lookupFst]
    rfl
  have hres : getProp (deepMerge (vObj bid bfs) (vObj pid pfs) fresh) k
      = propsGet (mergeFields (vObj bid bfs) pfs
          (copyEntries (vObj bid bfs)) false fresh).1 k := by
    rw [deepMerge, deepMergeF.eq_1]
    rw [if_neg (by simp [hne]), if_neg (by simp [truthy]),
      if_neg (by simp [truthy]), if_neg (by simp [typeofObject])]
    by_cases hmut : (mergeFields (vObj bid bfs) pfs
        (copyEntries (vObj bid bfs)) false fresh).2.1 = true
    · simp only [hmut, if_true]
      rw [show rebuildResult (vObj bid bfs)
          (mergeFields (vObj bid bfs) pfs (copyEntries (vObj bid bfs))
            false fresh).1
          (mergeFields (vObj bid bfs) pfs (copyEntries (vObj bid bfs))
            false fresh).2.2
        = vObj (mergeFields (vObj bid bfs) pfs (copyEntries (vObj bid bfs))
            false fresh).2.2
          (listToFields (mergeFields (vObj bid bfs) pfs
            (copyEntries (vObj bid bfs)) false fresh).1) from rfl]
      rw [getProp, fieldsLookup_eq_lookupFst, fieldsToList_listToFields,
        ← propsGet_eq_lookupFst]
    · simp only [hmut, Bool.false_eq_true, if_false]
      rw [mergeFields_no_mut _ _ _ _ _ (by simpa using hmut)]
      rw [hacc0]
  have hkey := mergeFields_key (vObj bid bfs) pfs k pv
    (copyEntries (vObj bid bfs)) false fresh hmem hnd hacc0
  refine ⟨?_, ?_, ?_, ?_, by decide⟩
  · intro h1
    rw [hres]
    exact hkey.1 h1
  · intro h1 h2
    rw [hres]
    exact hkey.2.1 h1 h2
  · intro h1 h2
    rw [hres]
    exact hkey.2.2 h1 h2
  · intro a b
    cases a <;> cases b <;>
      simp [mergeGuard, truthy, typeofObject, isArrV, isObjV]

/-- Witness for C4 (amended) at the nested-object key `"c"` of a
concrete merge: `base = {c: {x: 1}, a: 5}`, `partial = {c: {x: 9}}`. -/
theorem claim_deepmerge_cases_c4_witness :
    (jsEq (vObj 3 (.cons "x" (vNum 9) .nil))
      (getProp (vObj 0 (.cons "c" (vObj 1 (.cons "x" (vNum 1) .nil))
        (.cons "a" (vNum 5) .nil))) "c") = true →
      getProp (deepMerge
        (vObj 0 (.cons "c" (vObj 1 (.cons "x" (vNum 1) .nil))
          (.cons "a" (vNum 5) .nil)))
        (vObj 2 (.cons "c" (vObj 3 (.cons "x" (vNum 9) .nil)) .nil)) 4) "c"
        = getProp (vObj 0 (.cons "c" (vObj 1 (.cons "x" (vNum 1) .nil))
          (.cons "a" (vNum 5) .nil))) "c") ∧
    (jsEq (vObj 3 (.cons "x" (vNum 9) .nil))
      (getProp (vObj 0 (.cons "c" (vObj 1 (.cons "x" (vNum 1) .nil))
        (.cons "a" (vNum 5) .nil))) "c") = false →
      mergeGuard (vObj 3 (.cons "x" (vNum 9) .nil))
        (getProp (vObj 0 (.cons "c" (vObj 1 (.cons "x" (vNum 1) .nil))
          (.cons "a" (vNum 5) .nil))) "c") = true →
      ∃ f', getProp (deepMerge
        (vObj 0 (.cons "c" (vObj 1 (.cons "x" (vNum 1) .nil))
          (.cons "a" (vNum 5) .nil)))
        (vObj 2 (.cons "c" (vObj 3 (.cons "x" (vNum 9) .nil)) .nil)) 4) "c"
        = (deepMergeF (getProp (vObj 0 (.cons "c"
            (vObj 1 (.cons "x" (vNum 1) .nil))
            (.cons "a" (vNum 5) .nil))) "c")
          (vObj 3 (.cons "x" (vNum 9) .nil)) f').1) ∧
    (jsEq (vObj 3 (.cons "x" (vNum 9) .nil))
      (getProp (vObj 0 (.cons "c" (vObj 1 (.cons "x" (vNum 1) .nil))
        (.cons "a" (vNum 5) .nil))) "c") = false →
      mergeGuard (vObj 3 (.cons "x" (vNum 9) .nil))
        (getProp (vObj 0 (.cons "c" (vObj 1 (.cons "x" (vNum 1) .nil))
          (.cons "a" (vNum 5) .nil))) "c") = false →
      getProp (deepMerge
        (vObj 0 (.cons "c" (vObj 1 (.cons "x" (vNum 1) .nil))
          (.cons "a" (vNum 5) .nil)))
        (vObj 2 (.cons "c" (vObj 3 (.cons "x" (vNum 9) .nil)) .nil)) 4) "c"
        = vObj 3 (.cons "x" (vNum 9) .nil)) ∧
    (∀ a b, mergeGuard a b = (isObjV a && isObjV b)) ∧
    deepMerge (vArr 100 (.cons (vNum 1) (.cons (vNum 2) .nil)))
      (vArr 101 (.cons (vNum 9) .nil)) 102
      = vArr 102 (.cons (vNum 9) (.cons (vNum 2) .nil)) :=
  claim_deepmerge_cases_c4_amended 0 2 4
    (.cons "c" (vObj 1 (.cons "x" (vNum 1) .nil)) (.cons "a" (vNum 5) .nil))
    (.cons "c" (vObj 3 (.cons "x" (vNum 9) .nil)) .nil)
    (by decide) (by decide) "c" (vObj 3 (.cons "x" (vNum 9) .nil)) (by decide)

/-! ## Deep-merge stability (claim C5) -/

theorem mergeGuard_isObj (pv bv : JSVal) (h : mergeGuard pv bv = true) :
    isObjV pv = true ∧ isObjV bv = true := by
  cases pv <;> cases bv <;>
    simp_all [mergeGuard, truthy, typeofObject, isArrV, isObjV]

mutual

theorem nnc_deepMergeF (bv pv : JSVal) (f : Nat) (hb : isObjV bv = true)
    (hp : isObjV pv = true) (h : noNetChange bv pv = true) :
    deepMergeF bv pv f = (bv, false, f) := by
  cases pv with
  | vObj pid pfs =>
    rw [deepMergeF]
    by_cases heq : jsEq (vObj pid pfs) bv = true
    · rw [if_pos heq]
    · rw [if_neg heq]
      cases bv with
      | vObj bid bfs =>
        rw [if_neg (by simp [truthy]), if_neg (by simp [truthy]),
          if_neg (by simp [typeofObject])]
        rw [noNetChange] at h
        rw [nnc_mergeFields (vObj bid bfs) pfs
          (copyEntries (vObj bid bfs)) false f h]
        simp
      | vNull => exact absurd hb (by simp [isObjV])
      | vUndef => exact absurd hb (by simp [isObjV])
      | vBool b => exact absurd hb (by simp [isObjV])
      | vNum n => exact absurd hb (by simp [isObjV])
      | vStr s => exact absurd hb (by simp [isObjV])
      | vArr i es => exact absurd hb (by simp [isObjV])
  | vNull => exact absurd hp (by simp [isObjV])
  | vUndef => exact absurd hp (by simp [isObjV])
  | vBool b => exact absurd hp (by simp [isObjV])
  | vNum n => exact absurd hp (by simp [isObjV])
  | vStr s => exact absurd hp (by simp [isObjV])
  | vArr i es => exact absurd hp (by simp [isObjV])

theorem nnc_mergeFields (base : JSVal) (pfs : JSFields)
    (acc : List (String × JSVal)) (mutd : Bool) (f : Nat)
    (h : noNetChangeFields base pfs = true) :
    mergeFields base pfs acc mutd f = (acc, mutd, f) := by
  cases pfs with
  | nil => rw [mergeFields]
  | cons k pv rest =>
    rw [noNetChangeFields, Bool.and_eq_true] at h
    rw [mergeFields]
    by_cases hjs : jsEq pv (getProp base k) = true
    · rw [if_pos hjs]
      exact nnc_mergeFields base rest acc mutd f h.2
    · rw [if_neg hjs]
      have hg : mergeGuard pv (getProp base k) = true ∧
          noNetChange (getProp base k) pv = true := by
        rcases Bool.or_eq_true_iff.mp h.1 with h1 | h1
        · exact absurd h1 hjs
        · simp only [Bool.and_eq_true] at h1
          exact h1
      obtain ⟨hpo, hbo⟩ := mergeGuard_isObj pv (getProp base k) hg.1
      rw [if_pos hg.1]
      rw [nnc_deepMergeF (getProp base k) pv f hbo hpo hg.2]
      exact nnc_mergeFields base rest acc mutd f h.2

end

/-- **C5.** Deep-merge identity and referential stability: for every
theme object `T`, `deepMerge(T, {})` returns `T` itself (the changed
flag is false, so the very same reference is returned, not a copy);
and whenever no key of `partial` produces a net change against `base`
anywhere in the tree (every leaf reference-equal, descending through
plain-object pairs), `deepMerge(base, partial)` returns `base` itself.
Neither input is ever mutated — the embedding is a pure function from
inputs to the result. -/
theorem claim_deepmerge_stability_c5 (bid pid fresh : Nat)
    (bfs pfs : JSFields)
    (h : noNetChange (vObj bid bfs) (vObj pid pfs) = true) :
    deepMerge (vObj bid bfs) (vObj pid pfs) fresh = vObj bid bfs ∧
    (deepMergeF (vObj bid bfs) (vObj pid pfs) fresh).2.1 = false ∧
    deepMerge (vObj bid bfs) (vObj pid JSFields.nil) fresh = vObj bid bfs ∧
    (deepMergeF (vObj bid bfs) (vObj pid JSFields.nil) fresh).2.1 = false := by
  have h1 := nnc_deepMergeF (vObj bid bfs) (vObj pid pfs) fresh
    (by simp [isObjV]) (by simp [isObjV]) h
  have h2 := nnc_deepMergeF (vObj bid bfs) (vObj pid JSFields.nil) fresh
    (by simp [isObjV]) (by simp [isObjV])
    (by rw [noNetChange, noNetChangeFields])
  exact ⟨by rw [deepMerge, h1], by rw [h1], by rw [deepMerge, h2], by rw [h2]⟩

/-- Witness for C5: a nested theme with an object leaf and an array
leaf; the partial repeats the tree with fresh object wrappers whose
leaves are reference-equal (`x` the same primitive, `arr` the same
array reference), so the merge returns `base` itself. -/
theorem claim_deepmerge_stability_c5_witness :
    deepMerge
      (vObj 0 (.cons "a" (vObj 1 (.cons "x" (vNum 1) .nil))
        (.cons "arr" (vArr 2 (.cons (vNum 1) .nil)) .nil)))
      (vObj 3 (.cons "a" (vObj 4 (.cons "x" (vNum 1) .nil))
        (.cons "arr" (vArr 2 (.cons (vNum 1) .nil)) .nil))) 5
      = vObj 0 (.cons "a" (vObj 1 (.cons "x" (vNum 1) .nil))
        (.cons "arr" (vArr 2 (.cons (vNum 1) .nil)) .nil)) ∧
    (deepMergeF
      (vObj 0 (.cons "a" (vObj 1 (.cons "x" (vNum 1) .nil))
        (.cons "arr" (vArr 2 (.cons (vNum 1) .nil)) .nil)))
      (vObj 3 (.cons "a" (vObj 4 (.cons "x" (vNum 1) .nil))
        (.cons "arr" (vArr 2 (.cons (vNum 1) .nil)) .nil))) 5).2.1 = false ∧
    deepMerge
      (vObj 0 (.cons "a" (vObj 1 (.cons "x" (vNum 1) .nil))
        (.cons "arr" (vArr 2 (.cons (vNum 1) .nil)) .nil)))
      (vObj 3 JSFields.nil) 5
      = vObj 0 (.cons "a" (vObj 1 (.cons "x" (vNum 1) .nil))
        (.cons "arr" (vArr 2 (.cons (vNum 1) .nil)) .nil)) ∧
    (deepMergeF
      (vObj 0 (.cons "a" (vObj 1 (.cons "x" (vNum 1) .nil))
        (.cons "arr" (vArr 2 (.cons (vNum 1) .nil)) .nil)))
      (vObj 3 JSFields.nil) 5).2.1 = false :=
  claim_deepmerge_stability_c5 0 3 5
    (.cons "a" (vObj 1 (.cons "x" (vNum 1) .nil))
      (.cons "arr" (vArr 2 (.cons (vNum 1) .nil)) .nil))
    (.cons "a" (vObj 4 (.cons "x" (vNum 1) .nil))
      (.cons "arr" (vArr 2 (.cons (vNum 1) .nil)) .nil))
    (by decide)

/-! ## Condition evaluation (claim C6) -/

theorem splitColonAux_no_colon (cs : List Char) (cur : List Char)
    (h : ':' ∉ cs) : splitColonAux cs cur = [String.mk (cur.reverse ++ cs)] := by
  induction cs generalizing cur with
  | nil => simp [splitColonAux]
  | cons c rest ih =>
    simp only [List.mem_cons, not_or] at h
    rw [splitColonAux, if_neg (fun hc => h.1 hc.symm)]
    rw [ih _ h.2]
    simp

theorem splitColonAux_colon (cs : List Char) (tail : List Char)
    (cur : List Char) (h : ':' ∉ cs) :
    splitColonAux (cs ++ ':' :: tail) cur =
      String.mk (cur.reverse ++ cs) :: splitColonAux tail [] := by
  induction cs generalizing cur with
  | nil => simp [splitColonAux]
  | cons c rest ih =>
    simp only [List.mem_cons, not_or] at h
    rw [List.cons_append, splitColonAux, if_neg (fun hc => h.1 hc.symm)]
    rw [ih _ h.2]
    simp

/-- **C6 counterexample.** The claim's case analysis fails on the code
in two places.  (a) The malformed string `"a:b:c"` (not a single-`:`
string): the claim says it degenerates to a truthiness check of
`props["a:b:c"]` — which holds here — but the code splits it and
compares `props["a"]` against `"b"`, yielding `false`.  (b) A boolean
condition: the claim says it is returned as-is, but the code falls
through to `condition.includes(':')` and raises `TypeError`
(modelled as `none`) instead of evaluating to `true`. -/
theorem claim_condition_eval_c6_counterexample :
    truthy (propsGet [("a:b:c", vBool true), ("a", vStr "x")] "a:b:c") = true ∧
    evaluateCondition (.str "a:b:c")
      ⟨vObj 0 .nil, [("a:b:c", vBool true), ("a", vStr "x")], "ios"⟩
      = some false ∧
    evaluateCondition (.bool true)
      ⟨vObj 0 .nil, [("a:b:c", vBool true), ("a", vStr "x")], "ios"⟩
      = none := by
  refine ⟨by decide, by decide, rfl⟩

/-- **C6 amended.** `evaluateCondition` implements: a function is
invoked with the context and its result returned; a boolean literal is
*not* returned as-is — it raises `TypeError` (no result); a reserved
platform tag is true iff it equals the context platform; a string
containing at least one `':'` is split on `':'` and the *first two*
segments serve as key and value — true iff `props[key] === value` as a
string (so a malformed multi-colon string is *not* a truthiness check
of the whole string); a remaining colon-free string is true iff
`props[string]` is truthy. -/
theorem claim_condition_eval_c6_amended (ctx : StyleCtx) :
    (∀ b, evaluateCondition (.bool b) ctx = none) ∧
    (∀ f, evaluateCondition (.fn f) ctx = some (f ctx)) ∧
    (∀ s, s = "ios" ∨ s = "android" ∨ s = "web" →
      evaluateCondition (.str s) ctx = some (decide (ctx.platform = s))) ∧
    (∀ key value, ':' ∉ key.data → ':' ∉ value.data →
      evaluateCondition (.str (key ++ ":" ++ value)) ctx =
        some (jsEq (propsGet ctx.props key) (vStr value))) ∧
    (∀ key v1 rest, ':' ∉ key.data → ':' ∉ v1.data →
      evaluateCondition (.str (key ++ ":" ++ v1 ++ ":" ++ rest)) ctx =
        some (jsEq (propsGet ctx.props key) (vStr v1))) ∧
    (∀ s, s ≠ "ios" → s ≠ "android" → s ≠ "web" → ':' ∉ s.data →
      evaluateCondition (.str s) ctx = some (truthy (propsGet ctx.props s))) := by
  refine ⟨fun b => rfl, fun f => rfl, ?_, ?_, ?_, ?_⟩
  · intro s hs
    rcases hs with h | h | h <;> subst h <;> simp [evaluateCondition]
  · intro key value hk hv
    have hd : (key ++ ":" ++ value).data = key.data ++ ':' :: value.data := by
      simp [String.data_append]
    have hmem : ':' ∈ (key ++ ":" ++ value).data := by rw [hd]; simp
    have hne : ∀ t : String, ':' ∉ t.data → key ++ ":" ++ value ≠ t :=
      fun t ht hc => ht (hc ▸ hmem)
    rw [evaluateCondition]
    rw [if_neg (by
      push_neg
      exact ⟨hne "ios" (by decide), hne "android" (by decide),
        hne "web" (by decide)⟩)]
    rw [if_pos (by rw [hasColon, hd]; simp)]
    rw [splitColon, hd, splitColonAux_colon _ _ _ hk,
      splitColonAux_no_colon _ _ hv]
    simp
  · intro key v1 rest hk hv
    have hd : (key ++ ":" ++ v1 ++ ":" ++ rest).data =
        key.data ++ ':' :: (v1.data ++ ':' :: rest.data) := by
      simp [String.data_append]
    have hmem : ':' ∈ (key ++ ":" ++ v1 ++ ":" ++ rest).data := by
      rw [hd]; simp
    have hne : ∀ t : String, ':' ∉ t.data → key ++ ":" ++ v1 ++ ":" ++ rest ≠ t :=
      fun t ht hc => ht (hc ▸ hmem)
    rw [evaluateCondition]
    rw [if_neg (by
      push_neg
      exact ⟨hne "ios" (by decide), hne "android" (by decide),
        hne "web" (by decide)⟩)]
    rw [if_pos (by rw [hasColon, hd]; simp)]
    rw [splitColon, hd, splitColonAux_colon _ _ _ hk,
      splitColonAux_colon _ _ _ hv]
    simp
  · intro s h1 h2 h3 hc
    rw [evaluateCondition]
    rw [if_neg (by push_neg; exact ⟨h1, h2, h3⟩)]
    have : hasColon s = false := by
      rw [hasColon]
      cases ha : s.data.any (fun c => c = ':') with
      | false => rfl
      | true =>
        rw [List.any_eq_true] at ha
        obtain ⟨c, hcm, hcp⟩ := ha
        exact absurd ((by simpa using hcp : c = ':') ▸ hcm) hc
    rw [this]
    simp

/-- Witness for C6 (amended): the spec's own condition-matching
examples evaluated through the amended case analysis. -/
theorem claim_condition_eval_c6_witness :
    ((∀ b, evaluateCondition (.bool b)
        ⟨vObj 0 .nil, [("variant", vStr "primary"), ("disabled", vBool true)],
          "ios"⟩ = none) ∧
    (∀ f, evaluateCondition (.fn f)
        ⟨vObj 0 .nil, [("variant", vStr "primary"), ("disabled", vBool true)],
          "ios"⟩ = some (f ⟨vObj 0 .nil,
            [("variant", vStr "primary"), ("disabled", vBool true)], "ios"⟩)) ∧
    (∀ s, s = "ios" ∨ s = "android" ∨ s = "web" →
      evaluateCondition (.str s)
        ⟨vObj 0 .nil, [("variant", vStr "primary"), ("disabled", vBool true)],
          "ios"⟩ = some (decide (("ios" : String) = s))) ∧
    (∀ key value, ':' ∉ key.data → ':' ∉ value.data →
      evaluateCondition (.str (key ++ ":" ++ value))
        ⟨vObj 0 .nil, [("variant", vStr "primary"), ("disabled", vBool true)],
          "ios"⟩ =
        some (jsEq (propsGet
          [("variant", vStr "primary"), ("disabled", vBool true)] key)
          (vStr value))) ∧
    (∀ key v1 rest, ':' ∉ key.data → ':' ∉ v1.data →
      evaluateCondition (.str (key ++ ":" ++ v1 ++ ":" ++ rest))
        ⟨vObj 0 .nil, [("variant", vStr "primary"), ("disabled", vBool true)],
          "ios"⟩ =
        some (jsEq (propsGet
          [("variant", vStr "primary"), ("disabled", vBool true)] key)
          (vStr v1))) ∧
    (∀ s, s ≠ "ios" → s ≠ "android" → s ≠ "web" → ':' ∉ s.data →
      evaluateCondition (.str s)
        ⟨vObj 0 .nil, [("variant", vStr "primary"), ("disabled", vBool true)],
          "ios"⟩ =
        some (truthy (propsGet
          [("variant", vStr "primary"), ("disabled", vBool true)] s)))) ∧
    evaluateCondition (.str "variant:primary")
      ⟨vObj 0 .nil, [("variant", vStr "primary"), ("disabled", vBool true)],
        "ios"⟩ = some true ∧
    evaluateCondition (.str "variant:secondary")
      ⟨vObj 0 .nil, [("variant", vStr "primary"), ("disabled", vBool true)],
        "ios"⟩ = some false ∧
    evaluateCondition (.str "disabled")
      ⟨vObj 0 .nil, [("variant", vStr "primary"), ("disabled", vBool true)],
        "ios"⟩ = some true ∧
    evaluateCondition (.str "ios")
      ⟨vObj 0 .nil, [("variant", vStr "primary"), ("disabled", vBool true)],
        "android"⟩ = some false := by
  refine ⟨claim_condition_eval_c6_amended
    ⟨vObj 0 .nil, [("variant", vStr "primary"), ("disabled", vBool true)],
      "ios"⟩, by decide, by decide, by decide, by decide⟩

end Stylized
